import Mathlib

/-!
Verification of the mcp2517fd CAN-FD driver core
(`drivers/net/can/spi/mcp2517fd.c`), shallowly embedded: machine words are
`Nat` with explicit bitwise operations, bus transactions are recorded as
explicit traces, and fallible operations return `Except`.
-/

namespace Mcp2517fd

/-! ### Generic bit-arithmetic helper lemmas -/

/-- Distribute a bitwise and over a shifted mask. -/
theorem and_mask_shl (x m k : Nat) : x &&& (m <<< k) = ((x >>> k) &&& m) <<< k := by
  apply Nat.eq_of_testBit_eq
  intro i
  simp only [Nat.testBit_and, Nat.testBit_shiftLeft, Nat.testBit_shiftRight]
  by_cases h : k ≤ i
  · have hki : k + (i - k) = i := by omega
    simp [h, hki, Bool.and_comm, Bool.and_left_comm, Bool.and_assoc]
  · simp [h]

/-- Shifting left then right by the same amount is the identity on `Nat`. -/
theorem shl_shr_cancel (x k : Nat) : (x <<< k) >>> k = x := by
  rw [Nat.shiftLeft_eq, Nat.shiftRight_eq_div_pow]
  exact Nat.mul_div_cancel x (Nat.two_pow_pos k)

/-- Bitwise and with a single clear bit is zero. -/
theorem and_two_pow_eq_zero {x n : Nat} (h : x.testBit n = false) : x &&& 2 ^ n = 0 := by
  apply Nat.eq_of_testBit_eq
  intro i
  simp only [Nat.testBit_and, Nat.zero_testBit, Nat.testBit_two_pow]
  by_cases hi : n = i
  · subst hi; simp [h]
  · simp [hi]

/-- Bitwise and with a single set bit is nonzero. -/
theorem and_two_pow_ne_zero {x n : Nat} (h : x.testBit n = true) : x &&& 2 ^ n ≠ 0 := by
  intro h0
  have hb := congrArg (fun y => y.testBit n) h0
  simp [Nat.testBit_and, h, Nat.testBit_two_pow] at hb

/-- Oring a value below `2 ^ i` into a multiple of `2 ^ i` is addition. -/
theorem or_eq_add_of_lt {b : Nat} (i : Nat) (hb : b < 2 ^ i) (a : Nat) :
    (a <<< i) ||| b = a * 2 ^ i + b := by
  rw [Nat.shiftLeft_eq, Nat.mul_comm a (2 ^ i), ← Nat.mul_add_lt_is_or hb a]

/-! ### Register-bitfield constants, as defined in the driver source
(`GENMASK`, `BIT`, the `CAN_OBJ_*` layout and the generic CAN id bits). -/

def BIT (n : Nat) : Nat := 1 <<< n

def GENMASK (h l : Nat) : Nat := (2 ^ (h - l + 1) - 1) <<< l

def CAN_SFF_ID_BITS : Nat := 11
def CAN_EFF_ID_BITS : Nat := 29
def CAN_SFF_MASK : Nat := 0x7FF
def CAN_EFF_FLAG : Nat := 0x80000000
def CAN_RTR_FLAG : Nat := 0x40000000

def CAN_EFF_SID_SHIFT : Nat := CAN_EFF_ID_BITS - CAN_SFF_ID_BITS
def CAN_EFF_SID_BITS : Nat := CAN_SFF_ID_BITS
def CAN_EFF_SID_MASK : Nat := GENMASK (CAN_EFF_SID_SHIFT + CAN_EFF_SID_BITS - 1) CAN_EFF_SID_SHIFT
def CAN_EFF_EID_SHIFT : Nat := 0
def CAN_EFF_EID_BITS : Nat := CAN_EFF_SID_SHIFT
def CAN_EFF_EID_MASK : Nat := GENMASK (CAN_EFF_EID_SHIFT + CAN_EFF_EID_BITS - 1) CAN_EFF_EID_SHIFT

def CAN_OBJ_ID_SID_BITS : Nat := 11
def CAN_OBJ_ID_SID_SHIFT : Nat := 0
def CAN_OBJ_ID_SID_MASK : Nat := GENMASK (CAN_OBJ_ID_SID_SHIFT + CAN_OBJ_ID_SID_BITS - 1) CAN_OBJ_ID_SID_SHIFT
def CAN_OBJ_ID_EID_BITS : Nat := 18
def CAN_OBJ_ID_EID_SHIFT : Nat := 11
def CAN_OBJ_ID_EID_MASK : Nat := GENMASK (CAN_OBJ_ID_EID_SHIFT + CAN_OBJ_ID_EID_BITS - 1) CAN_OBJ_ID_EID_SHIFT

def CAN_OBJ_FLAGS_DLC_BITS : Nat := 4
def CAN_OBJ_FLAGS_DLC_SHIFT : Nat := 0
def CAN_OBJ_FLAGS_DLC_MASK : Nat := GENMASK (CAN_OBJ_FLAGS_DLC_SHIFT + CAN_OBJ_FLAGS_DLC_BITS - 1) CAN_OBJ_FLAGS_DLC_SHIFT
def CAN_OBJ_FLAGS_IDE : Nat := BIT 4
def CAN_OBJ_FLAGS_RTR : Nat := BIT 5
def CAN_OBJ_FLAGS_BRS : Nat := BIT 6
def CAN_OBJ_FLAGS_FDF : Nat := BIT 7
def CAN_OBJ_FLAGS_ESI : Nat := BIT 8
def CAN_OBJ_FLAGS_SEQ_BITS : Nat := 7
def CAN_OBJ_FLAGS_SEQ_SHIFT : Nat := 9
def CAN_OBJ_FLAGS_SEQ_MASK : Nat := GENMASK (CAN_OBJ_FLAGS_SEQ_SHIFT + CAN_OBJ_FLAGS_SEQ_BITS - 1) CAN_OBJ_FLAGS_SEQ_SHIFT

def CANFD_BRS : Nat := 0x01
def CANFD_ESI : Nat := 0x02

/-! ### Frame codec (`mcp2517fd_canid_to_mcpid` / `mcp2517fd_mcpid_to_canid`) -/

/-- Encoding half of the identifier codec, from the driver source. -/
def mcp2517fd_canid_to_mcpid (can_id : Nat) : Nat × Nat :=
  let base :=
    if can_id &&& CAN_EFF_FLAG ≠ 0 then
      let sid := (can_id &&& CAN_EFF_SID_MASK) >>> CAN_EFF_SID_SHIFT
      let eid := (can_id &&& CAN_EFF_EID_MASK) >>> CAN_EFF_EID_SHIFT
      ((eid <<< CAN_OBJ_ID_EID_SHIFT) ||| (sid <<< CAN_OBJ_ID_SID_SHIFT),
       CAN_OBJ_FLAGS_IDE)
    else
      (can_id &&& CAN_SFF_MASK, 0)
  (base.1, base.2 ||| (if can_id &&& CAN_RTR_FLAG ≠ 0 then CAN_OBJ_FLAGS_RTR else 0))

/-- Decoding half of the identifier codec, from the driver source. -/
def mcp2517fd_mcpid_to_canid (mcpid mcpflags : Nat) : Nat :=
  let sid := (mcpid &&& CAN_OBJ_ID_SID_MASK) >>> CAN_OBJ_ID_SID_SHIFT
  let eid := (mcpid &&& CAN_OBJ_ID_EID_MASK) >>> CAN_OBJ_ID_EID_SHIFT
  let id :=
    if mcpflags &&& CAN_OBJ_FLAGS_IDE ≠ 0 then
      (eid <<< CAN_EFF_EID_SHIFT) ||| (sid <<< CAN_EFF_SID_SHIFT) ||| CAN_EFF_FLAG
    else
      sid
  id ||| (if mcpflags &&& CAN_OBJ_FLAGS_RTR ≠ 0 then CAN_RTR_FLAG else 0)

/-- Claim C1: identifier round-trip of the frame codec.  Every standard CAN
identifier below `2^11` encodes (`mcp2517fd_canid_to_mcpid`) and decodes
(`mcp2517fd_mcpid_to_canid`) back to itself with the extended-id flag clear,
and every extended identifier below `2^29` submitted with the extended-id flag
set round-trips to itself with the extended-id flag set. -/
theorem mcp2517fd_canid_codec_roundtrip :
    (∀ id : Nat, id < 2 ^ 11 →
      mcp2517fd_mcpid_to_canid (mcp2517fd_canid_to_mcpid id).1
          (mcp2517fd_canid_to_mcpid id).2 = id ∧
        mcp2517fd_mcpid_to_canid (mcp2517fd_canid_to_mcpid id).1
          (mcp2517fd_canid_to_mcpid id).2 &&& CAN_EFF_FLAG = 0 ∧
        (mcp2517fd_canid_to_mcpid id).2 &&& CAN_OBJ_FLAGS_IDE = 0) ∧
    (∀ id : Nat, id < 2 ^ 29 →
      mcp2517fd_mcpid_to_canid (mcp2517fd_canid_to_mcpid (id ||| CAN_EFF_FLAG)).1
          (mcp2517fd_canid_to_mcpid (id ||| CAN_EFF_FLAG)).2 = id ||| CAN_EFF_FLAG ∧
        mcp2517fd_mcpid_to_canid (mcp2517fd_canid_to_mcpid (id ||| CAN_EFF_FLAG)).1
          (mcp2517fd_canid_to_mcpid (id ||| CAN_EFF_FLAG)).2 &&& CAN_EFF_FLAG ≠ 0 ∧
        (mcp2517fd_canid_to_mcpid (id ||| CAN_EFF_FLAG)).2 &&& CAN_OBJ_FLAGS_IDE ≠ 0) := by
  constructor
  · intro id h
    have h31 : id < 2 ^ 31 := lt_of_lt_of_le h (by norm_num)
    have h30 : id < 2 ^ 30 := lt_of_lt_of_le h (by norm_num)
    have hEff : id &&& CAN_EFF_FLAG = 0 := by
      rw [(by decide : CAN_EFF_FLAG = 2 ^ 31)]
      exact and_two_pow_eq_zero (Nat.testBit_lt_two_pow h31)
    have hRtr : id &&& CAN_RTR_FLAG = 0 := by
      rw [(by decide : CAN_RTR_FLAG = 2 ^ 30)]
      exact and_two_pow_eq_zero (Nat.testBit_lt_two_pow h30)
    have hSff : id &&& CAN_SFF_MASK = id := by
      rw [(by decide : CAN_SFF_MASK = 2 ^ 11 - 1)]
      exact Nat.and_pow_two_sub_one_of_lt_two_pow h
    have henc : mcp2517fd_canid_to_mcpid id = (id, 0) := by
      simp [mcp2517fd_canid_to_mcpid, hEff, hRtr, hSff]
    have hSid : id &&& CAN_OBJ_ID_SID_MASK = id := by
      rw [(by decide : CAN_OBJ_ID_SID_MASK = 2 ^ 11 - 1)]
      exact Nat.and_pow_two_sub_one_of_lt_two_pow h
    have hdec : mcp2517fd_mcpid_to_canid id 0 = id := by
      simp [mcp2517fd_mcpid_to_canid, hSid, CAN_OBJ_ID_SID_SHIFT,
        (by decide : (0 : Nat) &&& CAN_OBJ_FLAGS_IDE = 0),
        (by decide : (0 : Nat) &&& CAN_OBJ_FLAGS_RTR = 0)]
    rw [henc]
    exact ⟨hdec, by rw [hdec]; exact hEff,
      (by decide : (0 : Nat) &&& CAN_OBJ_FLAGS_IDE = 0)⟩
  · intro id h
    obtain ⟨q, r, hid, hq, hr⟩ :
        ∃ q r, id = 2 ^ 18 * q + r ∧ q < 2 ^ 11 ∧ r < 2 ^ 18 := by
      refine ⟨id / 2 ^ 18, id % 2 ^ 18, (Nat.div_add_mod id (2 ^ 18)).symm, ?_,
        Nat.mod_lt _ (by norm_num)⟩
      exact Nat.div_lt_of_lt_mul (by calc id < 2 ^ 29 := h
                                        _ = 2 ^ 18 * 2 ^ 11 := by norm_num)
    have h31 : id < 2 ^ 31 := lt_of_lt_of_le h (by norm_num)
    have h30 : id < 2 ^ 30 := lt_of_lt_of_le h (by norm_num)
    have hcan : id ||| CAN_EFF_FLAG = 2 ^ 31 + id := by
      rw [(by decide : CAN_EFF_FLAG = 2 ^ 31), Nat.or_comm]
      have := (Nat.mul_add_lt_is_or h31 1).symm
      simpa using this
    have ht31 : (2 ^ 31 + id).testBit 31 = true := by
      have := Nat.testBit_mul_pow_two_add 1 h31 31
      simpa using this
    have ht30 : (2 ^ 31 + id).testBit 30 = false := by
      have h' := Nat.testBit_mul_pow_two_add 1 h31 30
      simp only [Nat.mul_one, if_pos (by norm_num : 30 < 31)] at h'
      rw [h']
      exact Nat.testBit_lt_two_pow h30
    have hEffNe : (2 ^ 31 + id) &&& CAN_EFF_FLAG ≠ 0 := by
      rw [(by decide : CAN_EFF_FLAG = 2 ^ 31)]
      exact and_two_pow_ne_zero ht31
    have hRtrZ : (2 ^ 31 + id) &&& CAN_RTR_FLAG = 0 := by
      rw [(by decide : CAN_RTR_FLAG = 2 ^ 30)]
      exact and_two_pow_eq_zero ht30
    have hsid : ((2 ^ 31 + id) &&& CAN_EFF_SID_MASK) >>> CAN_EFF_SID_SHIFT = q := by
      rw [(by decide : CAN_EFF_SID_MASK = (2 ^ 11 - 1) <<< 18),
        (by decide : CAN_EFF_SID_SHIFT = 18), and_mask_shl, shl_shr_cancel,
        Nat.shiftRight_eq_div_pow, Nat.and_pow_two_sub_one_eq_mod]
      subst hid
      omega
    have heid : ((2 ^ 31 + id) &&& CAN_EFF_EID_MASK) >>> CAN_EFF_EID_SHIFT = r := by
      rw [(by decide : CAN_EFF_EID_MASK = 2 ^ 18 - 1),
        (by decide : CAN_EFF_EID_SHIFT = 0), Nat.shiftRight_zero,
        Nat.and_pow_two_sub_one_eq_mod]
      subst hid
      omega
    have henc : mcp2517fd_canid_to_mcpid (id ||| CAN_EFF_FLAG)
        = (r * 2 ^ 11 + q, CAN_OBJ_FLAGS_IDE) := by
      rw [hcan]
      simp only [mcp2517fd_canid_to_mcpid, if_pos hEffNe, hsid, heid]
      have hor : (r <<< CAN_OBJ_ID_EID_SHIFT) ||| (q <<< CAN_OBJ_ID_SID_SHIFT)
          = r * 2 ^ 11 + q := by
        rw [(by decide : CAN_OBJ_ID_EID_SHIFT = 11),
          (by decide : CAN_OBJ_ID_SID_SHIFT = 0), Nat.shiftLeft_zero]
        exact or_eq_add_of_lt 11 hq r
      have hRtrZ2 : (2147483648 + id) &&& CAN_RTR_FLAG = 0 := hRtrZ
      simp [hor, hRtrZ, hRtrZ2]
    have hqr31 : r * 2 ^ 11 + q < 2 ^ 29 := by omega
    have hsid2 : ((r * 2 ^ 11 + q) &&& CAN_OBJ_ID_SID_MASK) >>> CAN_OBJ_ID_SID_SHIFT
        = q := by
      rw [(by decide : CAN_OBJ_ID_SID_MASK = 2 ^ 11 - 1),
        (by decide : CAN_OBJ_ID_SID_SHIFT = 0), Nat.shiftRight_zero,
        Nat.and_pow_two_sub_one_eq_mod]
      omega
    have heid2 : ((r * 2 ^ 11 + q) &&& CAN_OBJ_ID_EID_MASK) >>> CAN_OBJ_ID_EID_SHIFT
        = r := by
      rw [(by decide : CAN_OBJ_ID_EID_MASK = (2 ^ 18 - 1) <<< 11),
        (by decide : CAN_OBJ_ID_EID_SHIFT = 11), and_mask_shl, shl_shr_cancel,
        Nat.shiftRight_eq_div_pow, Nat.and_pow_two_sub_one_eq_mod]
      clear hsid2 hqr31 henc heid hsid hRtrZ hEffNe ht30 ht31 hcan hid h
      omega
    have hinner : (r <<< CAN_EFF_EID_SHIFT) ||| (q <<< CAN_EFF_SID_SHIFT) = id := by
      rw [(by decide : CAN_EFF_EID_SHIFT = 0), (by decide : CAN_EFF_SID_SHIFT = 18),
        Nat.shiftLeft_zero, Nat.or_comm]
      rw [or_eq_add_of_lt 18 hr q]
      omega
    have hdec : mcp2517fd_mcpid_to_canid (r * 2 ^ 11 + q) CAN_OBJ_FLAGS_IDE
        = id ||| CAN_EFF_FLAG := by
      simp only [mcp2517fd_mcpid_to_canid, hsid2, heid2,
        if_pos (by decide : CAN_OBJ_FLAGS_IDE &&& CAN_OBJ_FLAGS_IDE ≠ 0),
        (by decide : CAN_OBJ_FLAGS_IDE &&& CAN_OBJ_FLAGS_RTR = 0), hinner]
      simp
    rw [henc]
    refine ⟨hdec, ?_,
      (by decide : CAN_OBJ_FLAGS_IDE &&& CAN_OBJ_FLAGS_IDE ≠ 0)⟩
    rw [hdec, hcan]
    exact hEffNe

/-- Witness for C1 at the concrete standard id `0x123` and extended id
`0x12345678`. -/
theorem mcp2517fd_canid_codec_roundtrip_witness :
    ((0x123 : Nat) < 2 ^ 11 ∧
      mcp2517fd_mcpid_to_canid (mcp2517fd_canid_to_mcpid 0x123).1
        (mcp2517fd_canid_to_mcpid 0x123).2 = 0x123) ∧
    ((0x12345678 : Nat) < 2 ^ 29 ∧
      mcp2517fd_mcpid_to_canid
        (mcp2517fd_canid_to_mcpid (0x12345678 ||| CAN_EFF_FLAG)).1
        (mcp2517fd_canid_to_mcpid (0x12345678 ||| CAN_EFF_FLAG)).2
        = 0x12345678 ||| CAN_EFF_FLAG) :=
  ⟨⟨by norm_num, (mcp2517fd_canid_codec_roundtrip.1 0x123 (by norm_num)).1⟩,
   ⟨by norm_num, (mcp2517fd_canid_codec_roundtrip.2 0x12345678 (by norm_num)).1⟩⟩

/-! ### CAN-FD length codes and the FD transmit path -/

/-- Modelled from the spec: `can_dlc2len` lives in `drivers/net/can/dev.c`,
which is not under `src/`.  Codes 0-8 map 1:1 to byte counts 0-8 and codes
9-15 map to 12, 16, 20, 24, 32, 48, 64 (the code is taken modulo 16, as the
reference implementation masks the code with `0x0F`). -/
def can_dlc2len (dlc : Nat) : Nat :=
  [0, 1, 2, 3, 4, 5, 6, 7, 8, 12, 16, 20, 24, 32, 48, 64].getD (dlc % 16) 0

/-- Modelled from the spec: `can_len2dlc` lives in `drivers/net/can/dev.c`,
which is not under `src/`.  It returns the smallest length code whose byte
count is at least `len`; lengths above 64 map to code 15. -/
def can_len2dlc (len : Nat) : Nat :=
  if len ≤ 8 then len
  else if len ≤ 12 then 9
  else if len ≤ 16 then 10
  else if len ≤ 20 then 11
  else if len ≤ 24 then 12
  else if len ≤ 32 then 13
  else if len ≤ 48 then 14
  else 15

/-- A generic CAN-FD host frame (`struct canfd_frame`): identifier, payload
length in bytes and FD flags. -/
structure CanfdFrame where
  can_id : Nat
  len : Nat
  flags : Nat

/-- The device transmit object header (`struct mcp2517fd_obj_tx`). -/
structure TxObj where
  id : Nat
  flags : Nat

/-- `mcp2517fd_transmit_fdmessage`: corrects `frame->len` in place to the
rounded value, encodes the identifier and flag bits, and hands the corrected
length to the common transmit path (the third component). -/
def mcp2517fd_transmit_fdmessage (frame : CanfdFrame) : CanfdFrame × TxObj × Nat :=
  let dlc := can_len2dlc frame.len
  let frame := { frame with len := can_dlc2len dlc }
  let e := mcp2517fd_canid_to_mcpid frame.can_id
  let flags := e.2 ||| (dlc <<< CAN_OBJ_FLAGS_DLC_SHIFT)
  let flags := flags |||
    (if frame.can_id &&& CAN_EFF_FLAG ≠ 0 then CAN_OBJ_FLAGS_IDE else 0)
  let flags := flags |||
    (if frame.can_id &&& CAN_RTR_FLAG ≠ 0 then CAN_OBJ_FLAGS_RTR else 0)
  let flags := flags |||
    (if frame.flags &&& CANFD_BRS ≠ 0 then CAN_OBJ_FLAGS_BRS else 0)
  let flags := flags |||
    (if frame.flags &&& CANFD_ESI ≠ 0 then CAN_OBJ_FLAGS_ESI else 0)
  let flags := flags ||| CAN_OBJ_FLAGS_FDF
  (frame, ⟨e.1, flags⟩, frame.len)

/-- Oring in a value whose low bits are clear does not change the low bits. -/
theorem and_or_cancel_right {b m : Nat} (a : Nat) (hb : b &&& m = 0) :
    (a ||| b) &&& m = a &&& m := by
  rw [Nat.and_distrib_right, hb, Nat.or_zero]

/-- Oring onto a value whose low bits are clear leaves the other operand. -/
theorem and_or_cancel_left {a m : Nat} (b : Nat) (ha : a &&& m = 0) :
    (a ||| b) &&& m = b &&& m := by
  rw [Nat.and_distrib_right, ha, Nat.zero_or]

/-- A conditional whose two branches both have clear low bits has clear low
bits. -/
theorem ite_and_zero {c : Prop} [Decidable c] {x y m : Nat}
    (hx : x &&& m = 0) (hy : y &&& m = 0) : (if c then x else y) &&& m = 0 := by
  split
  · exact hx
  · exact hy

/-- The identifier-codec flag word only uses bits 4 and 5 (IDE and RTR), so
its low four bits are clear. -/
theorem canid_flags_low (can_id : Nat) :
    (mcp2517fd_canid_to_mcpid can_id).2 &&& (2 ^ 4 - 1) = 0 := by
  simp only [mcp2517fd_canid_to_mcpid]
  split_ifs
  · exact (by decide : (CAN_OBJ_FLAGS_IDE ||| CAN_OBJ_FLAGS_RTR) &&& (2 ^ 4 - 1) = 0)
  · exact (by decide : (CAN_OBJ_FLAGS_IDE ||| 0) &&& (2 ^ 4 - 1) = 0)
  · exact (by decide : ((0 : Nat) ||| CAN_OBJ_FLAGS_RTR) &&& (2 ^ 4 - 1) = 0)
  · exact (by decide : ((0 : Nat) ||| 0) &&& (2 ^ 4 - 1) = 0)

/-- The length code produced by `can_len2dlc` fits in the 4-bit DLC field. -/
theorem can_len2dlc_lt (len : Nat) : can_len2dlc len < 2 ^ 4 := by
  unfold can_len2dlc
  split_ifs <;> omega

/-- The DLC field of the FD transmit flag word: everything ored in above the
length code has clear low bits. -/
theorem fd_flags_dlc_field (a dlc i1 i2 i3 i4 : Nat)
    (ha : a &&& (2 ^ 4 - 1) = 0) (h1 : i1 &&& (2 ^ 4 - 1) = 0)
    (h2 : i2 &&& (2 ^ 4 - 1) = 0) (h3 : i3 &&& (2 ^ 4 - 1) = 0)
    (h4 : i4 &&& (2 ^ 4 - 1) = 0) (hdlc : dlc < 2 ^ 4) :
    (((((a ||| dlc) ||| i1) ||| i2) ||| i3) ||| i4 ||| CAN_OBJ_FLAGS_FDF)
        &&& (2 ^ 4 - 1) = dlc := by
  rw [and_or_cancel_right _ (by decide : CAN_OBJ_FLAGS_FDF &&& (2 ^ 4 - 1) = 0),
    and_or_cancel_right _ h4, and_or_cancel_right _ h3, and_or_cancel_right _ h2,
    and_or_cancel_right _ h1, and_or_cancel_left _ ha,
    Nat.and_pow_two_sub_one_of_lt_two_pow hdlc]

/-- Claim C2: CAN-FD length-code rounding.  For every payload length up to 64
the round trip `can_dlc2len (can_len2dlc len)` is the smallest representable
length at least `len`, and `mcp2517fd_transmit_fdmessage` corrects the frame
length in place to that value, passes it on as the payload byte count, and
encodes the matching DLC, so decoded DLC and corrected length agree. -/
theorem mcp2517fd_fd_length_rounding :
    (∀ len : Nat, len ≤ 64 →
      len ≤ can_dlc2len (can_len2dlc len) ∧
      ∀ d : Nat, d < 16 → len ≤ can_dlc2len d →
        can_dlc2len (can_len2dlc len) ≤ can_dlc2len d) ∧
    (∀ frame : CanfdFrame,
      (mcp2517fd_transmit_fdmessage frame).1.len
          = can_dlc2len (can_len2dlc frame.len) ∧
      (mcp2517fd_transmit_fdmessage frame).2.2
          = (mcp2517fd_transmit_fdmessage frame).1.len ∧
      (mcp2517fd_transmit_fdmessage frame).2.1.flags &&& CAN_OBJ_FLAGS_DLC_MASK
          = can_len2dlc frame.len ∧
      can_dlc2len
          ((mcp2517fd_transmit_fdmessage frame).2.1.flags &&& CAN_OBJ_FLAGS_DLC_MASK)
          = (mcp2517fd_transmit_fdmessage frame).1.len) := by
  constructor
  · decide
  · intro frame
    have hflags : (mcp2517fd_transmit_fdmessage frame).2.1.flags
        &&& CAN_OBJ_FLAGS_DLC_MASK = can_len2dlc frame.len := by
      have h := fd_flags_dlc_field (mcp2517fd_canid_to_mcpid frame.can_id).2
        (can_len2dlc frame.len)
        (if frame.can_id &&& CAN_EFF_FLAG ≠ 0 then CAN_OBJ_FLAGS_IDE else 0)
        (if frame.can_id &&& CAN_RTR_FLAG ≠ 0 then CAN_OBJ_FLAGS_RTR else 0)
        (if frame.flags &&& CANFD_BRS ≠ 0 then CAN_OBJ_FLAGS_BRS else 0)
        (if frame.flags &&& CANFD_ESI ≠ 0 then CAN_OBJ_FLAGS_ESI else 0)
        (canid_flags_low frame.can_id)
        (ite_and_zero (by decide) (by decide))
        (ite_and_zero (by decide) (by decide))
        (ite_and_zero (by decide) (by decide))
        (ite_and_zero (by decide) (by decide))
        (can_len2dlc_lt frame.len)
      exact h
    exact ⟨rfl, rfl, hflags, by rw [hflags]; rfl⟩

/-- Witness for C2 at the concrete length 9 (rounded up to 12) and a concrete
frame. -/
theorem mcp2517fd_fd_length_rounding_witness :
    ((9 : Nat) ≤ 64 ∧ 9 ≤ can_dlc2len (can_len2dlc 9)) ∧
    (mcp2517fd_transmit_fdmessage ⟨0x100, 9, 0⟩).1.len
        = can_dlc2len (can_len2dlc 9) :=
  ⟨⟨by decide, (mcp2517fd_fd_length_rounding.1 9 (by decide)).1⟩,
   (mcp2517fd_fd_length_rounding.2 ⟨0x100, 9, 0⟩).1⟩

/-! ### Classic (non-FD) transmit path -/

/-- A generic classic CAN host frame (`struct can_frame`). -/
structure CanFrame where
  can_id : Nat
  can_dlc : Nat

/-- `mcp2517fd_transmit_message`: clamps `can_dlc` to 8 in place, encodes the
identifier and flags, and hands the clamped DLC to the common transmit path as
the payload byte count (the third component). -/
def mcp2517fd_transmit_message (frame : CanFrame) : CanFrame × TxObj × Nat :=
  let frame := if frame.can_dlc > 8 then { frame with can_dlc := 8 } else frame
  let e := mcp2517fd_canid_to_mcpid frame.can_id
  let flags := e.2 ||| (frame.can_dlc <<< CAN_OBJ_FLAGS_DLC_SHIFT)
  let flags := flags |||
    (if frame.can_id &&& CAN_EFF_FLAG ≠ 0 then CAN_OBJ_FLAGS_IDE else 0)
  let flags := flags |||
    (if frame.can_id &&& CAN_RTR_FLAG ≠ 0 then CAN_OBJ_FLAGS_RTR else 0)
  (frame, ⟨e.1, flags⟩, frame.can_dlc)

/-- The DLC field of the classic transmit flag word. -/
theorem classic_flags_dlc_field (a dlc i1 i2 : Nat)
    (ha : a &&& (2 ^ 4 - 1) = 0) (h1 : i1 &&& (2 ^ 4 - 1) = 0)
    (h2 : i2 &&& (2 ^ 4 - 1) = 0) (hdlc : dlc < 2 ^ 4) :
    (((a ||| dlc) ||| i1) ||| i2) &&& (2 ^ 4 - 1) = dlc := by
  rw [and_or_cancel_right _ h2, and_or_cancel_right _ h1, and_or_cancel_left _ ha,
    Nat.and_pow_two_sub_one_of_lt_two_pow hdlc]

/-- Claim C10: implicit classic-frame clamp.  `mcp2517fd_transmit_message`
first reduces an oversized `can_dlc` to 8 in place, so the encoded DLC field
and the payload byte count handed to the common transmit path never exceed
8, while DLC values up to 8 pass through unchanged. -/
theorem mcp2517fd_classic_dlc_clamp (frame : CanFrame) :
    (frame.can_dlc > 8 → (mcp2517fd_transmit_message frame).1.can_dlc = 8) ∧
    (frame.can_dlc ≤ 8 →
      (mcp2517fd_transmit_message frame).1.can_dlc = frame.can_dlc) ∧
    (mcp2517fd_transmit_message frame).1.can_dlc ≤ 8 ∧
    (mcp2517fd_transmit_message frame).2.2
      = (mcp2517fd_transmit_message frame).1.can_dlc ∧
    (mcp2517fd_transmit_message frame).2.1.flags &&& CAN_OBJ_FLAGS_DLC_MASK
      = (mcp2517fd_transmit_message frame).1.can_dlc ∧
    (mcp2517fd_transmit_message frame).2.2 ≤ 8 := by
  have hclamp : (mcp2517fd_transmit_message frame).1.can_dlc
      = if frame.can_dlc > 8 then 8 else frame.can_dlc := by
    by_cases h : frame.can_dlc > 8 <;>
      simp [mcp2517fd_transmit_message, h]
  have hle : (mcp2517fd_transmit_message frame).1.can_dlc ≤ 8 := by
    rw [hclamp]; split_ifs <;> omega
  have hlt : (mcp2517fd_transmit_message frame).1.can_dlc < 2 ^ 4 := by omega
  have hflags : (mcp2517fd_transmit_message frame).2.1.flags
      &&& CAN_OBJ_FLAGS_DLC_MASK
      = (mcp2517fd_transmit_message frame).1.can_dlc := by
    exact classic_flags_dlc_field
      (mcp2517fd_canid_to_mcpid
        (if frame.can_dlc > 8 then { frame with can_dlc := 8 } else frame).can_id).2
      (if frame.can_dlc > 8 then { frame with can_dlc := 8 } else frame).can_dlc
      (if (if frame.can_dlc > 8 then { frame with can_dlc := 8 } else frame).can_id
            &&& CAN_EFF_FLAG ≠ 0 then CAN_OBJ_FLAGS_IDE else 0)
      (if (if frame.can_dlc > 8 then { frame with can_dlc := 8 } else frame).can_id
            &&& CAN_RTR_FLAG ≠ 0 then CAN_OBJ_FLAGS_RTR else 0)
      (canid_flags_low _) (ite_and_zero (by decide) (by decide))
      (ite_and_zero (by decide) (by decide)) hlt
  refine ⟨?_, ?_, hle, rfl, hflags, hle⟩
  · intro h; rw [hclamp, if_pos h]
  · intro h; rw [hclamp, if_neg (by omega)]

/-- Witness for C10 at a frame with oversized DLC 13 and one with DLC 5. -/
theorem mcp2517fd_classic_dlc_clamp_witness :
    ((13 : Nat) > 8 ∧ (mcp2517fd_transmit_message ⟨0x55, 13⟩).1.can_dlc = 8) ∧
    ((5 : Nat) ≤ 8 ∧ (mcp2517fd_transmit_message ⟨0x55, 5⟩).1.can_dlc = 5) :=
  ⟨⟨by decide, (mcp2517fd_classic_dlc_clamp ⟨0x55, 13⟩).1 (by decide)⟩,
   ⟨by decide, (mcp2517fd_classic_dlc_clamp ⟨0x55, 5⟩).2.1 (by decide)⟩⟩

/-! ### Bit scanning primitives (`ffs`, `fls`, `hweight_long`) -/

/-- Fuel-based evaluator behind `ffs` (structural recursion so that proofs
can evaluate it). -/
def ffsAux (x : Nat) : Nat → Nat
  | 0 => 0
  | fuel + 1 =>
    if x = 0 then 0
    else if x % 2 = 1 then 1
    else ffsAux (x / 2) fuel + 1

/-- Linux `ffs`: one-based index of the least significant set bit, 0 for 0. -/
def ffs (x : Nat) : Nat := ffsAux x x

/-- Fuel-based evaluator behind `fls`. -/
def flsAux (x : Nat) : Nat → Nat
  | 0 => 0
  | fuel + 1 => if x = 0 then 0 else flsAux (x / 2) fuel + 1

/-- Linux `fls`: one-based index of the most significant set bit, 0 for 0. -/
def fls (x : Nat) : Nat := flsAux x x

/-- Fuel-based evaluator behind `hweight_long`. -/
def hweightAux (x : Nat) : Nat → Nat
  | 0 => 0
  | fuel + 1 => if x = 0 then 0 else x % 2 + hweightAux (x / 2) fuel

/-- Linux `hweight_long`: population count. -/
def hweight_long (x : Nat) : Nat := hweightAux x x

theorem ffsAux_zero : ∀ fuel, ffsAux 0 fuel = 0 := by
  intro fuel; cases fuel <;> simp [ffsAux]

theorem ffsAux_eq_of_le (x : Nat) : ∀ {f g : Nat}, x ≤ f → x ≤ g →
    ffsAux x f = ffsAux x g := by
  induction x using Nat.strong_induction_on with
  | _ x ih =>
    intro f g hf hg
    by_cases hx : x = 0
    · subst hx; rw [ffsAux_zero, ffsAux_zero]
    · cases f with
      | zero => omega
      | succ f =>
        cases g with
        | zero => omega
        | succ g =>
          simp only [ffsAux, hx, if_false]
          by_cases hodd : x % 2 = 1
          · simp [hodd]
          · simp only [hodd, if_false]
            rw [ih (x / 2) (by omega) (show x / 2 ≤ f by omega)
              (show x / 2 ≤ g by omega)]

/-- The natural recurrence of `ffs`, matching the Linux semantics. -/
theorem ffs_eq (x : Nat) :
    ffs x = if x = 0 then 0 else if x % 2 = 1 then 1 else ffs (x / 2) + 1 := by
  by_cases hx : x = 0
  · subst hx; simp [ffs, ffsAux]
  · obtain ⟨y, rfl⟩ : ∃ y, x = y + 1 := ⟨x - 1, by omega⟩
    simp only [ffs, ffsAux, hx, if_false]
    by_cases ho : (y + 1) % 2 = 1
    · simp [ho]
    · simp only [ho, if_false]
      rw [ffsAux_eq_of_le ((y + 1) / 2) (show (y + 1) / 2 ≤ y by omega)
        (le_refl _)]

theorem flsAux_zero : ∀ fuel, flsAux 0 fuel = 0 := by
  intro fuel; cases fuel <;> simp [flsAux]

theorem flsAux_eq_of_le (x : Nat) : ∀ {f g : Nat}, x ≤ f → x ≤ g →
    flsAux x f = flsAux x g := by
  induction x using Nat.strong_induction_on with
  | _ x ih =>
    intro f g hf hg
    by_cases hx : x = 0
    · subst hx; rw [flsAux_zero, flsAux_zero]
    · cases f with
      | zero => omega
      | succ f =>
        cases g with
        | zero => omega
        | succ g =>
          simp only [flsAux, hx, if_false]
          rw [ih (x / 2) (by omega) (show x / 2 ≤ f by omega)
            (show x / 2 ≤ g by omega)]

/-- The natural recurrence of `fls`, matching the Linux semantics. -/
theorem fls_eq (x : Nat) : fls x = if x = 0 then 0 else fls (x / 2) + 1 := by
  by_cases hx : x = 0
  · subst hx; simp [fls, flsAux]
  · obtain ⟨y, rfl⟩ : ∃ y, x = y + 1 := ⟨x - 1, by omega⟩
    simp only [fls, flsAux, hx, if_false]
    rw [flsAux_eq_of_le ((y + 1) / 2) (show (y + 1) / 2 ≤ y by omega) (le_refl _)]

theorem hweightAux_zero : ∀ fuel, hweightAux 0 fuel = 0 := by
  intro fuel; cases fuel <;> simp [hweightAux]

theorem hweightAux_eq_of_le (x : Nat) : ∀ {f g : Nat}, x ≤ f → x ≤ g →
    hweightAux x f = hweightAux x g := by
  induction x using Nat.strong_induction_on with
  | _ x ih =>
    intro f g hf hg
    by_cases hx : x = 0
    · subst hx; rw [hweightAux_zero, hweightAux_zero]
    · cases f with
      | zero => omega
      | succ f =>
        cases g with
        | zero => omega
        | succ g =>
          simp only [hweightAux, hx, if_false]
          rw [ih (x / 2) (by omega) (show x / 2 ≤ f by omega)
            (show x / 2 ≤ g by omega)]

/-- The natural recurrence of `hweight_long`, matching the Linux semantics. -/
theorem hweight_long_eq (x : Nat) :
    hweight_long x = if x = 0 then 0 else x % 2 + hweight_long (x / 2) := by
  by_cases hx : x = 0
  · subst hx; simp [hweight_long, hweightAux]
  · obtain ⟨y, rfl⟩ : ∃ y, x = y + 1 := ⟨x - 1, by omega⟩
    simp only [hweight_long, hweightAux, hx, if_false]
    rw [hweightAux_eq_of_le ((y + 1) / 2) (show (y + 1) / 2 ≤ y by omega)
      (le_refl _)]

/-- `ffs` really is the one-based index of the lowest set bit. -/
theorem ffs_spec (x : Nat) (hx : x ≠ 0) :
    1 ≤ ffs x ∧ x.testBit (ffs x - 1) = true ∧
      ∀ j, j < ffs x - 1 → x.testBit j = false := by
  induction x using Nat.strong_induction_on with
  | _ x ih =>
    rw [ffs_eq]
    simp only [hx, if_false]
    by_cases hodd : x % 2 = 1
    · simp only [hodd, if_true]
      refine ⟨le_refl 1, ?_, fun j hj => absurd hj (by omega)⟩
      simp [Nat.testBit_zero, hodd]
    · simp only [hodd, if_false]
      have hx2 : x / 2 ≠ 0 := by omega
      obtain ⟨h1, h2, h3⟩ := ih (x / 2) (by omega) hx2
      refine ⟨by omega, ?_, ?_⟩
      · have : ffs (x / 2) + 1 - 1 = (ffs (x / 2) - 1) + 1 := by omega
        rw [this, Nat.testBit_add_one]
        exact h2
      · intro j hj
        match j with
        | 0 => simp [Nat.testBit_zero]; omega
        | j + 1 =>
          rw [Nat.testBit_add_one]
          exact h3 j (by omega)

/-- `ffs` of an odd value shifted left by `m` is `m + 1`. -/
theorem ffs_shl_odd (m : Nat) : ∀ x : Nat, x % 2 = 1 → ffs (x <<< m) = m + 1 := by
  induction m with
  | zero =>
    intro x hx
    rw [Nat.shiftLeft_zero, ffs_eq]
    simp only [hx, if_true]
    rw [if_neg (by omega)]
  | succ m ih =>
    intro x hx
    have hsh : x <<< (m + 1) = (x <<< m) * 2 := by
      rw [Nat.shiftLeft_eq, Nat.shiftLeft_eq, Nat.pow_succ, ← Nat.mul_assoc]
    have hpos : 0 < x <<< m := by
      rw [Nat.shiftLeft_eq]
      exact Nat.mul_pos (by omega) (Nat.two_pow_pos m)
    rw [hsh, ffs_eq, if_neg (by omega), if_neg (by omega),
      Nat.mul_div_cancel _ (by omega : 0 < 2), ih x hx]

/-! ### Register Transport: masked partial reads and writes
(`mcp2517fd_cmd_read_mask` / `mcp2517fd_cmd_write_mask`).

Device memory is a byte-addressed function `mem : Nat → Nat`; every bus
transaction the code would issue is recorded as a `SpiOp`.  The host is
little-endian (the target platform), so `le32_to_cpu`/`cpu_to_le32` are the
identity and a 32-bit value is the little-endian sum of its bytes. -/

inductive SpiOp where
  | read (addr len : Nat)
  | write (addr : Nat) (bytes : List Nat)
deriving DecidableEq

/-- `mcp2517fd_cmd_read_mask`: zero mask fails with `-EINVAL` and no bus
transaction; otherwise the code zeroes the output word and issues one read of
`len_byte` bytes at register address `reg` (sic: not `reg + first_byte`),
depositing them at byte offsets `first_byte..last_byte` of the output. -/
def mcp2517fd_cmd_read_mask (mem : Nat → Nat) (reg mask : Nat) :
    Except Int (Nat × List SpiOp) :=
  if mask = 0 then .error (-22)
  else
    let first_byte := (ffs mask - 1) / 8
    let last_byte := (fls mask - 1) / 8
    let len_byte := last_byte - first_byte + 1
    let value := (List.range len_byte).foldl
      (fun acc k => acc + mem (reg + k) * 2 ^ (8 * (first_byte + k))) 0
    .ok (value, [.read reg len_byte])

/-- `mcp2517fd_cmd_write_mask`: zero mask fails with `-EINVAL`; otherwise one
write of the little-endian bytes `first_byte..last_byte` of `data`, starting
at register address `reg + first_byte`. -/
def mcp2517fd_cmd_write_mask (reg data mask : Nat) : Except Int (List SpiOp) :=
  if mask = 0 then .error (-22)
  else
    let first_byte := (ffs mask - 1) / 8
    let last_byte := (fls mask - 1) / 8
    let len_byte := last_byte - first_byte + 1
    .ok [.write (reg + first_byte)
      ((List.range len_byte).map (fun k => data / 2 ^ (8 * (first_byte + k)) % 256))]

/-- Claim C3 (code bug, read half): for mask `0xFF00` (`first_byte = last_byte
= 1`) the claimed behavior is a one-byte read of register byte 1 (bus address
`reg + 1`) placed at result byte 1; the code instead issues its one-byte read
at bus address `reg` (register byte 0) while still depositing the byte at
result byte 1.  Evaluated at `reg = 4` over memory holding `10 * addr` at each
address: the code returns `10 * 4` shifted into byte 1 via a read at address
4, not `10 * 5` via a read at address 5.  The zero-mask error path and the
write half behave as claimed. -/
theorem mcp2517fd_cmd_read_mask_wrong_byte_window :
    mcp2517fd_cmd_read_mask (fun a => 10 * a) 4 0xFF00
        = .ok (10 * 4 * 2 ^ 8, [.read 4 1]) ∧
    ([SpiOp.read 4 1] : List SpiOp) ≠ [SpiOp.read (4 + 1) 1] ∧
    (10 * 4 * 2 ^ 8 : Nat) ≠ 10 * 5 * 2 ^ 8 ∧
    mcp2517fd_cmd_read_mask (fun a => 10 * a) 4 0 = .error (-22) ∧
    mcp2517fd_cmd_write_mask 4 0x12345678 0xFF00 = .ok [.write (4 + 1) [0x56]] ∧
    mcp2517fd_cmd_write_mask 4 0x12345678 0 = .error (-22) :=
  ⟨rfl, by decide, by decide, rfl, rfl, rfl⟩

/-! ### Transmit scheduler (`mcp2517fd_tx_work_handler` / `mcp2517fd_start_xmit`) -/

/-- Shifting distributes over bitwise or. -/
theorem or_shl (a b k : Nat) : (a ||| b) <<< k = (a <<< k) ||| (b <<< k) := by
  apply Nat.eq_of_testBit_eq
  intro i
  simp only [Nat.testBit_or, Nat.testBit_shiftLeft]
  by_cases h : k ≤ i <;> simp [h]

theorem two_pow_sub_one_odd {k : Nat} (hk : 1 ≤ k) : (2 ^ k - 1) % 2 = 1 := by
  have h : 2 ^ k = 2 * 2 ^ (k - 1) := by
    calc 2 ^ k = 2 ^ (k - 1 + 1) := by congr 1; omega
    _ = 2 ^ (k - 1) * 2 := by rw [Nat.pow_succ]
    _ = 2 * 2 ^ (k - 1) := by ring
  have := Nat.two_pow_pos (k - 1)
  omega

theorem mask_shl_ne_zero {k : Nat} (m : Nat) (hk : 1 ≤ k) :
    (2 ^ k - 1) <<< m ≠ 0 := by
  rw [Nat.shiftLeft_eq]
  have h1 : 2 ≤ 2 ^ k := by
    calc 2 = 2 ^ 1 := rfl
    _ ≤ 2 ^ k := Nat.pow_le_pow_right (by omega) hk
  have h2 := Nat.two_pow_pos m
  exact Nat.ne_of_gt (Nat.mul_pos (by omega) h2)

/-- Marking the fifo just below a block of pending fifos extends the block. -/
theorem pending_step (k m : Nat) :
    ((2 ^ k - 1) <<< (m + 1)) ||| (1 <<< m) = (2 ^ (k + 1) - 1) <<< m := by
  have h1 : (2 ^ k - 1) <<< (m + 1) = ((2 ^ k - 1) <<< 1) <<< m := by
    rw [← Nat.shiftLeft_add]
    congr 1
    omega
  have h2 : (2 ^ k - 1) <<< 1 = 2 ^ (k + 1) - 2 := by
    rw [Nat.shiftLeft_eq, Nat.pow_succ]
    have := Nat.two_pow_pos k
    omega
  have h3 : (2 ^ (k + 1) - 2) ||| 1 = 2 ^ (k + 1) - 1 := by
    have h4 := @Nat.mul_add_lt_is_or 1 1 (by omega : (1 : Nat) < 2 ^ 1) (2 ^ k - 1)
    have h5 : 2 ^ 1 * (2 ^ k - 1) = 2 ^ (k + 1) - 2 := by
      rw [Nat.pow_succ]
      have := Nat.two_pow_pos k
      ring_nf
      omega
    have := Nat.two_pow_pos (k + 1)
    rw [h5] at h4
    have h6 : 2 ≤ 2 ^ (k + 1) := by
      calc 2 = 2 ^ 1 := rfl
      _ ≤ 2 ^ (k + 1) := Nat.pow_le_pow_right (by omega) (by omega)
    omega
  rw [h1, ← or_shl, h2, h3]

/-- Fifo selection of `mcp2517fd_tx_work_handler`: one below the lowest
pending fifo, or the highest fifo of the pool when nothing is pending.  The
result is a C `int`. -/
def mcp2517fd_tx_choose_fifo (pending_mask tx_fifo_start tx_fifos : Nat) : Int :=
  if pending_mask ≠ 0 then (ffs pending_mask : Int) - 2
  else (tx_fifo_start : Int) + (tx_fifos : Int) - 1

/-- The scheduler-visible driver state: the busy latch `tx_work_skb`, the
Pending-Set, the netif queue state and the transmit error counter (which the
driver never touches on this path). -/
structure TxSchedState where
  tx_work_skb : Bool
  tx_pending_mask : Nat
  queue_running : Bool
  tx_err : Nat
  defect_logged : Bool
deriving DecidableEq

/-- `mcp2517fd_tx_work_handler`: picks a fifo; if it falls below the pool it
logs and returns early (the skb latch, Pending-Set and counters untouched);
otherwise it clears the latch, restarts the queue when above the pool start,
marks the fifo pending and transmits on it (the returned fifo number). -/
def mcp2517fd_tx_work_handler (tx_fifo_start tx_fifos : Nat) (s : TxSchedState) :
    TxSchedState × Option Nat :=
  let fifo := mcp2517fd_tx_choose_fifo s.tx_pending_mask tx_fifo_start tx_fifos
  if fifo < (tx_fifo_start : Int) then
    ({ s with defect_logged := true }, none)
  else
    ({ s with
        tx_work_skb := false,
        queue_running := if fifo > (tx_fifo_start : Int) then true else s.queue_running,
        tx_pending_mask := s.tx_pending_mask ||| BIT fifo.toNat },
     some fifo.toNat)

/-- `mcp2517fd_start_xmit`: busy while the latch is set, otherwise latches the
skb, stops the queue and queues the work. -/
def mcp2517fd_start_xmit (s : TxSchedState) : TxSchedState × Bool :=
  if s.tx_work_skb then (s, true)
  else ({ s with tx_work_skb := true, queue_running := false }, false)

/-- Submitting `k` frames in a row with no completions retired: iterates the
fifo choice and pending marking of the work handler on an initially empty
Pending-Set, collecting the chosen fifo numbers. -/
def tx_submit_seq (tx_fifo_start tx_fifos : Nat) : Nat → Nat × List Int
  | 0 => (0, [])
  | k + 1 =>
    let p := tx_submit_seq tx_fifo_start tx_fifos k
    let c := mcp2517fd_tx_choose_fifo p.1 tx_fifo_start tx_fifos
    (if c < (tx_fifo_start : Int) then p.1 else p.1 ||| BIT c.toNat, p.2 ++ [c])

/-- Invariant of the no-completion submission sequence: after `k` submissions
the Pending-Set is the block of the `k` highest fifos of the pool and the
chosen fifos are the top `k` in strictly descending order. -/
theorem tx_submit_seq_spec (s n : Nat) (hn : 1 ≤ n) : ∀ k, k ≤ n →
    (tx_submit_seq s n k).1 = (2 ^ k - 1) <<< (s + n - k) ∧
    (tx_submit_seq s n k).2
      = (List.range k).map (fun i => ((s + n - 1 - i : Nat) : Int)) := by
  intro k
  induction k with
  | zero =>
    intro _
    constructor
    · simp [tx_submit_seq, Nat.zero_shiftLeft]
    · simp [tx_submit_seq]
  | succ k ih =>
    intro hk
    obtain ⟨hp, hl⟩ := ih (by omega)
    by_cases hk0 : k = 0
    · subst hk0
      have hpend : (tx_submit_seq s n 0).1 = 0 := by simp [tx_submit_seq]
      have hc : mcp2517fd_tx_choose_fifo 0 s n = (s : Int) + (n : Int) - 1 := by
        simp [mcp2517fd_tx_choose_fifo]
      constructor
      · simp only [tx_submit_seq, hpend, hc]
        rw [if_neg (by omega)]
        have htn : ((s : Int) + (n : Int) - 1).toNat = s + n - 1 := by omega
        rw [htn]
        simp only [BIT, Nat.zero_or]
        have h1 : (2 ^ (0 + 1) - 1 : Nat) = 1 := by norm_num
        have h2 : s + n - (0 + 1) = s + n - 1 := by omega
        rw [h1, h2]
      · have hcast : ((s + n - 1 - 0 : Nat) : Int) = (s : Int) + (n : Int) - 1 := by
          omega
        simp only [tx_submit_seq, hpend, hc, List.range_succ, List.map_append,
          List.map_singleton, hcast]
        simp [tx_submit_seq]
    · have hk1 : 1 ≤ k := by omega
      have hne : (2 ^ k - 1) <<< (s + n - k) ≠ 0 := mask_shl_ne_zero _ hk1
      have hffs : ffs ((2 ^ k - 1) <<< (s + n - k)) = (s + n - k) + 1 :=
        ffs_shl_odd _ _ (two_pow_sub_one_odd hk1)
      have hc : mcp2517fd_tx_choose_fifo ((2 ^ k - 1) <<< (s + n - k)) s n
          = ((s + n - k - 1 : Nat) : Int) := by
        simp only [mcp2517fd_tx_choose_fifo, if_pos hne, hffs]
        omega
      constructor
      · simp only [tx_submit_seq, hp, hc]
        rw [if_neg (by omega)]
        have htn : ((s + n - k - 1 : Nat) : Int).toNat = s + n - k - 1 := by omega
        rw [htn, BIT]
        set m := s + n - k - 1 with hm
        have hm1 : s + n - k = m + 1 := by omega
        have hm2 : s + n - (k + 1) = m := by omega
        rw [hm1, hm2]
        exact pending_step k m
      · simp only [tx_submit_seq, hp, hc, hl]
        rw [List.range_succ, List.map_append, List.map_singleton]
        congr 2
        omega

/-- Claim C4 counterexample: once all fifos of the pool `1..7` are pending
(mask `0xFE`) and the highest fifo 7 — the only freed one — is retired (mask
`0x7E = 126`), the claim says fifo 7 is reused first; the code instead
computes `ffs(0x7E) - 2 = 0`, which is below the pool start, and the work
handler drops the submission without transmitting anything. -/
theorem mcp2517fd_tx_lowest_freed_not_reused :
    mcp2517fd_tx_choose_fifo 126 1 7 = 0 ∧ (0 : Int) ≠ 7 ∧
    (mcp2517fd_tx_work_handler 1 7 ⟨true, 126, false, 0, false⟩).2 = none := by
  decide

/-- Claim C4 (amended): the scheduler picks one less than the index of the
lowest set Pending-Set bit (the highest pool fifo when the set is empty);
with no completions retired, `k ≤ n` submissions are assigned the top `k`
fifos in strictly descending order; once all fifos are pending, a freed fifo
is reused first only when it is the pool's lowest fifo — freeing any higher
fifo makes the computed index fall below the pool (a scheduling defect). -/
theorem mcp2517fd_tx_slot_selection (s n : Nat) (hn : 1 ≤ n) :
    (∀ pending : Nat, pending ≠ 0 →
      ∃ b : Nat, pending.testBit b = true ∧
        (∀ j, j < b → pending.testBit j = false) ∧
        mcp2517fd_tx_choose_fifo pending s n = (b : Int) - 1) ∧
    mcp2517fd_tx_choose_fifo 0 s n = (s : Int) + (n : Int) - 1 ∧
    (∀ k, k ≤ n →
      (tx_submit_seq s n k).2
        = (List.range k).map (fun i => ((s + n - 1 - i : Nat) : Int))) ∧
    (∀ k, k ≤ n → ∀ i j : Nat, i < j → j < k →
      (tx_submit_seq s n k).2.getD j 0 < (tx_submit_seq s n k).2.getD i 0) ∧
    (∀ f, s < f → f < s + n →
      mcp2517fd_tx_choose_fifo (((2 ^ n - 1) <<< s) - BIT f) s n
        = (s : Int) - 1) ∧
    (2 ≤ n →
      mcp2517fd_tx_choose_fifo (((2 ^ n - 1) <<< s) - BIT s) s n = (s : Int)) := by
  refine ⟨?_, ?_, ?_, ?_, ?_, ?_⟩
  · intro pending hp
    obtain ⟨h1, h2, h3⟩ := ffs_spec pending hp
    refine ⟨ffs pending - 1, h2, h3, ?_⟩
    simp only [mcp2517fd_tx_choose_fifo, if_pos hp]
    omega
  · simp [mcp2517fd_tx_choose_fifo]
  · intro k hk
    exact (tx_submit_seq_spec s n hn k hk).2
  · intro k hk i j hij hjk
    have hl := (tx_submit_seq_spec s n hn k hk).2
    rw [hl]
    simp only [List.getD_eq_getElem?_getD, List.getElem?_map,
      List.getElem?_range (by omega : j < k), List.getElem?_range (by omega : i < k),
      Option.map_some', Option.getD_some]
    omega
  · intro f hsf hfn
    have hn2 : 1 ≤ f - s := by omega
    have hshape : ((2 ^ n - 1) <<< s) - BIT f
        = ((2 ^ n - 1) - 2 ^ (f - s)) <<< s := by
      simp only [BIT, Nat.shiftLeft_eq, Nat.one_mul]
      rw [Nat.sub_mul (2 ^ n - 1) (2 ^ (f - s)) (2 ^ s)]
      congr 1
      rw [← Nat.pow_add]
      congr 1
      omega
    have hlt : 2 ^ (f - s) < 2 ^ n :=
      Nat.pow_lt_pow_right (by omega) (by omega)
    have hodd : ((2 ^ n - 1) - 2 ^ (f - s)) % 2 = 1 := by
      have e1 : 2 ^ n = 2 * 2 ^ (n - 1) := by
        calc 2 ^ n = 2 ^ (n - 1 + 1) := by congr 1; omega
        _ = 2 ^ (n - 1) * 2 := by rw [Nat.pow_succ]
        _ = 2 * 2 ^ (n - 1) := by ring
      have e2 : 2 ^ (f - s) = 2 * 2 ^ (f - s - 1) := by
        calc 2 ^ (f - s) = 2 ^ (f - s - 1 + 1) := by congr 1; omega
        _ = 2 ^ (f - s - 1) * 2 := by rw [Nat.pow_succ]
        _ = 2 * 2 ^ (f - s - 1) := by ring
      omega
    have hne : ((2 ^ n - 1) - 2 ^ (f - s)) <<< s ≠ 0 := by
      rw [Nat.shiftLeft_eq]
      have := Nat.two_pow_pos s
      have hpos : 1 ≤ (2 ^ n - 1) - 2 ^ (f - s) := by
        have h2f : 2 ^ (f - s) ≤ 2 ^ (n - 1) :=
          Nat.pow_le_pow_right (by omega) (by omega)
        have e1 : 2 ^ n = 2 * 2 ^ (n - 1) := by
          calc 2 ^ n = 2 ^ (n - 1 + 1) := by congr 1; omega
          _ = 2 ^ (n - 1) * 2 := by rw [Nat.pow_succ]
          _ = 2 * 2 ^ (n - 1) := by ring
        have := Nat.two_pow_pos (n - 1)
        omega
      exact Nat.ne_of_gt (Nat.mul_pos (by omega) this)
    rw [hshape]
    simp only [mcp2517fd_tx_choose_fifo, if_pos hne,
      ffs_shl_odd s _ hodd]
    omega
  · intro hn2
    have hshape : ((2 ^ n - 1) <<< s) - BIT s
        = (2 ^ (n - 1) - 1) <<< (s + 1) := by
      simp only [BIT, Nat.shiftLeft_eq, Nat.one_mul]
      have e1 : 2 ^ n = 2 * 2 ^ (n - 1) := by
        calc 2 ^ n = 2 ^ (n - 1 + 1) := by congr 1; omega
        _ = 2 ^ (n - 1) * 2 := by rw [Nat.pow_succ]
        _ = 2 * 2 ^ (n - 1) := by ring
      have hp1 := Nat.two_pow_pos (n - 1)
      have hp2 := Nat.two_pow_pos s
      have l1 : (2 ^ n - 1) * 2 ^ s - 2 ^ s = (2 ^ n - 2) * 2 ^ s := by
        have l2 := Nat.sub_mul (2 ^ n - 1) 1 (2 ^ s)
        have l3 : 2 ^ n - 1 - 1 = 2 ^ n - 2 := by omega
        rw [l3, Nat.one_mul] at l2
        exact l2.symm
      calc (2 ^ n - 1) * 2 ^ s - 2 ^ s
          = (2 ^ n - 2) * 2 ^ s := l1
        _ = (2 * (2 ^ (n - 1) - 1)) * 2 ^ s := by
            have h3 : 2 ^ n - 2 = 2 * (2 ^ (n - 1) - 1) := by omega
            rw [h3]
        _ = (2 ^ (n - 1) - 1) * (2 ^ s * 2) := by ring
        _ = (2 ^ (n - 1) - 1) * 2 ^ (s + 1) := by rw [← Nat.pow_succ]
    have hodd : (2 ^ (n - 1) - 1) % 2 = 1 := two_pow_sub_one_odd (by omega)
    have hne : (2 ^ (n - 1) - 1) <<< (s + 1) ≠ 0 := mask_shl_ne_zero _ (by omega)
    rw [hshape]
    simp only [mcp2517fd_tx_choose_fifo, if_pos hne, ffs_shl_odd (s + 1) _ hodd]
    omega

/-- Witness for C4 at the real pool (start 1, 7 fifos): three submissions go
to fifos 7, 6, 5, and with all fifos pending and only fifo 1 freed fifo 1 is
chosen. -/
theorem mcp2517fd_tx_slot_selection_witness :
    ((1 : Nat) ≤ 7 ∧ (tx_submit_seq 1 7 3).2 = [(7 : Int), 6, 5]) ∧
    mcp2517fd_tx_choose_fifo (((2 ^ 7 - 1) <<< 1) - BIT 1) 1 7 = (1 : Int) :=
  ⟨⟨by decide, by
      have h := (mcp2517fd_tx_slot_selection 1 7 (by decide)).2.2.1 3 (by decide)
      rw [h]; decide⟩,
   (mcp2517fd_tx_slot_selection 1 7 (by decide)).2.2.2.2.2 (by decide)⟩

/-- Claim C7 counterexample: with the pool starting at fifo 1 and only fifo 1
pending (mask 2), the computed fifo is `ffs(2) - 2 = 0 < 1`.  The handler
drops the frame but increments no transmit-error counter and leaves the busy
latch set, so the next submission is rejected busy — the claim's "counted as
a transmit error" and "subsequent submissions are still accepted" both fail. -/
theorem mcp2517fd_tx_defect_not_counted :
    (mcp2517fd_tx_work_handler 1 7 ⟨true, 2, false, 0, false⟩).2 = none ∧
    (mcp2517fd_tx_work_handler 1 7 ⟨true, 2, false, 0, false⟩).1.tx_err = 0 ∧
    (mcp2517fd_start_xmit
      (mcp2517fd_tx_work_handler 1 7 ⟨true, 2, false, 0, false⟩).1).2 = true := by
  decide

/-- Claim C7 (amended): when the computed fifo falls below the pool start the
handler logs the defect and drops the submission (nothing transmitted, the
Pending-Set untouched), but it increments no transmit-error counter and does
not clear the busy latch, so as long as the latch stays set every subsequent
submission is rejected busy. -/
theorem mcp2517fd_tx_scheduling_defect (start n : Nat) (s : TxSchedState)
    (h : mcp2517fd_tx_choose_fifo s.tx_pending_mask start n < (start : Int)) :
    (mcp2517fd_tx_work_handler start n s).1 = { s with defect_logged := true } ∧
    (mcp2517fd_tx_work_handler start n s).2 = none ∧
    (mcp2517fd_tx_work_handler start n s).1.tx_err = s.tx_err ∧
    (mcp2517fd_tx_work_handler start n s).1.tx_pending_mask = s.tx_pending_mask ∧
    (mcp2517fd_tx_work_handler start n s).1.tx_work_skb = s.tx_work_skb ∧
    (s.tx_work_skb = true →
      (mcp2517fd_start_xmit (mcp2517fd_tx_work_handler start n s).1).2 = true) := by
  have hh : mcp2517fd_tx_work_handler start n s
      = ({ s with defect_logged := true }, none) := by
    simp only [mcp2517fd_tx_work_handler, if_pos h]
  rw [hh]
  refine ⟨rfl, rfl, rfl, rfl, rfl, ?_⟩
  intro hskb
  simp [mcp2517fd_start_xmit, hskb]

/-- Witness for C7 at the concrete defect state (pool start 1, pending mask
2). -/
theorem mcp2517fd_tx_scheduling_defect_witness :
    mcp2517fd_tx_choose_fifo 2 1 7 < (1 : Int) ∧
    (mcp2517fd_tx_work_handler 1 7 ⟨true, 2, false, 3, false⟩).2 = none ∧
    (mcp2517fd_tx_work_handler 1 7 ⟨true, 2, false, 3, false⟩).1.tx_err = 3 :=
  ⟨by decide,
   (mcp2517fd_tx_scheduling_defect 1 7 ⟨true, 2, false, 3, false⟩ (by decide)).2.1,
   (mcp2517fd_tx_scheduling_defect 1 7 ⟨true, 2, false, 3, false⟩ (by decide)).2.2.1⟩

/-! ### Completion retirement (`mcp2517fd_can_ist_handle_tefif`) -/

/-- State touched by the completion-retirement pass. -/
structure TefState where
  tx_pending_mask : Nat
  tef_address : Nat
  tef_address_start : Nat
  tef_address_end : Nat
  tx_packets : Nat
deriving DecidableEq

/-- TEF ring address bookkeeping of `mcp2517fd_setup_fifo` (source lines
1539-1543): the cursor and its start are the address read back from the
device, and the end address is computed as `(tx_fifos + 1)` slots of
`sizeof(struct mcp2517fd_obj_tef) = 12` bytes (while the TEF size written to
`CAN_TEFCON` at line 1473 is `tx_fifos` slots, encoded as `tx_fifos - 1`). -/
def mcp2517fd_setup_tef (val tx_fifos : Nat) : TefState :=
  { tx_pending_mask := 0, tef_address := val, tef_address_start := val,
    tef_address_end := val + (tx_fifos + 1) * 12 - 1, tx_packets := 0 }

/-- The configured TEF FSIZE field (source line 1473): the hardware encoding
`size - 1` for a completion ring of `tx_fifos` slots. -/
def mcp2517fd_tefcon_fsize (tx_fifos : Nat) : Nat := tx_fifos - 1

/-- One completion retirement: extract the sequence tag, bump the packet
counter and advance the cursor by one 12-byte slot, wrapping to the start
when it runs past the end address. -/
def mcp2517fd_tef_step (s : TefState) (flags : Nat) : TefState × Nat :=
  let fifo := (flags &&& CAN_OBJ_FLAGS_SEQ_MASK) >>> CAN_OBJ_FLAGS_SEQ_SHIFT
  let a := s.tef_address + 12
  ({ s with
      tef_address := if a > s.tef_address_end then s.tef_address_start else a,
      tx_packets := s.tx_packets + 1 },
   fifo)

/-- `mcp2517fd_can_ist_handle_tefif`: the number of completions processed is
`hweight(tx_pending_mask) - hweight(status.txreq)` (a C `int`; the loop runs
zero times when it is negative); each iteration retires one completion object
(`tefRead i` gives the flags word of the i-th object read in this pass) and
ors `BIT(seq)` into a 32-bit mask, which is cleared from the Pending-Set at
the end.  Returns the new state, the count and the cleared mask. -/
def mcp2517fd_can_ist_handle_tefif (s : TefState) (txreq : Nat)
    (tefRead : Nat → Nat) : TefState × Nat × Nat :=
  let count := ((hweight_long s.tx_pending_mask : Int)
    - (hweight_long txreq : Int)).toNat
  let r := (List.range count).foldl
    (fun (acc : TefState × Nat) i =>
      let st := mcp2517fd_tef_step acc.1 (tefRead i)
      (st.1, (acc.2 ||| BIT st.2) % 2 ^ 32))
    (s, 0)
  ({ r.1 with tx_pending_mask := r.1.tx_pending_mask &&& ((2 ^ 32 - 1) ^^^ r.2) },
   count, r.2)

/-- Claim C5 (code bug): with `tx_fifos = 7` (both supported MTU modes), TEF
base address 0 and initial offset 0, retiring `K = 7` completions (tags 7
down to 1, all seven pending fifos, `txreq = 0`) processes
`popcount(pending) - popcount(txreq) = 7` completions and clears exactly the
seven tagged Pending-Set bits — but leaves the cursor at `7 * 12 = 84`,
whereas the claim (`start + ((0 + 7) mod 7) * 12`, ring length = configured
TEF size = `tx_fifos`) demands 0: `tef_address_end` is computed from
`tx_fifos + 1 = 8` slots while `CAN_TEFCON` configures `tx_fifos = 7` slots,
so the software cursor wraps modulo 8 and desynchronizes from the hardware
ring. -/
theorem mcp2517fd_tef_cursor_wrap_off_by_one :
    (mcp2517fd_tefcon_fsize 7) + 1 = 7 ∧
    (mcp2517fd_setup_tef 0 7).tef_address_end = 8 * 12 - 1 ∧
    (mcp2517fd_can_ist_handle_tefif
        { mcp2517fd_setup_tef 0 7 with tx_pending_mask := 0xFE } 0
        (fun i => (7 - i) <<< 9)).2.1 = 7 ∧
    (mcp2517fd_can_ist_handle_tefif
        { mcp2517fd_setup_tef 0 7 with tx_pending_mask := 0xFE } 0
        (fun i => (7 - i) <<< 9)).1.tef_address = 7 * 12 ∧
    (7 * 12 : Nat) ≠ 0 + ((0 + 7) % 7) * 12 ∧
    (mcp2517fd_can_ist_handle_tefif
        { mcp2517fd_setup_tef 0 7 with tx_pending_mask := 0xFE } 0
        (fun i => (7 - i) <<< 9)).1.tx_pending_mask = 0 := by
  decide

/-! ### Receive-overflow recovery (`mcp2517fd_can_ist_handle_rxovif`) -/

/-- `CAN_FIFOSTA(x)` register address (C `int` arithmetic, so `x = 0` yields
`0x60 - 12`). -/
def CAN_FIFOSTA (x : Int) : Int := 0x60 + 12 * (x - 1)

def CAN_FIFOSTA_RXOVIF : Nat := BIT 3
def CAN_ERR_CRTL : Nat := 0x04
def CAN_ERR_CRTL_RX_OVERFLOW : Nat := 0x01

/-- Everything one overflow-recovery pass produces: the masked register
writes issued (register, value, mask), the three counter increments, and the
synthetic error frames emitted (identifier, `data[1]`). -/
structure RxovResult where
  writes : List (Int × Nat × Nat)
  rx_over_errors : Nat
  rx_errors : Nat
  rx_overflow : Nat
  err_skbs : List (Nat × Nat)
deriving DecidableEq

/-- `mcp2517fd_can_ist_handle_rxovif`: for each of the 32 fifo status bits
set in `status.rxovif`, clear that fifo's overflow flag with an individual
masked write and bump the counters, accumulating the error-frame id/data by
or-ing; after the loop emit a single error frame when anything overflowed. -/
def mcp2517fd_can_ist_handle_rxovif (rxovif : Nat) : RxovResult :=
  let r := (List.range 32).foldl
    (fun (acc : RxovResult × Nat × Nat) i =>
      if rxovif &&& BIT i ≠ 0 then
        ({ acc.1 with
            writes := acc.1.writes ++ [(CAN_FIFOSTA i, 0, CAN_FIFOSTA_RXOVIF)],
            rx_over_errors := acc.1.rx_over_errors + 1,
            rx_errors := acc.1.rx_errors + 1,
            rx_overflow := acc.1.rx_overflow + 1 },
         acc.2.1 ||| CAN_ERR_CRTL, acc.2.2 ||| CAN_ERR_CRTL_RX_OVERFLOW)
      else acc)
    ({ writes := [], rx_over_errors := 0, rx_errors := 0, rx_overflow := 0,
       err_skbs := [] }, 0, 0)
  if r.2.1 ≠ 0 then { r.1 with err_skbs := [(r.2.1, r.2.2)] } else r.1

/-- Testing a single bit with `&&& BIT i` agrees with `testBit`. -/
theorem and_bit_iff (x i : Nat) : x &&& BIT i ≠ 0 ↔ x.testBit i = true := by
  rw [BIT, Nat.shiftLeft_eq, Nat.one_mul]
  constructor
  · intro h
    by_contra hb
    exact h (and_two_pow_eq_zero (by simpa using hb))
  · exact and_two_pow_ne_zero

/-- The overflow fifos of a pass, in index order. -/
def rxovFifos (rxovif n : Nat) : List Nat :=
  (List.range n).filter (fun i => rxovif.testBit i)

/-- Invariant of the recovery fold over the first `n` fifo indices. -/
theorem rxov_fold_spec (rxovif n : Nat) :
    (List.range n).foldl
      (fun (acc : RxovResult × Nat × Nat) i =>
        if rxovif &&& BIT i ≠ 0 then
          ({ acc.1 with
              writes := acc.1.writes ++ [(CAN_FIFOSTA i, 0, CAN_FIFOSTA_RXOVIF)],
              rx_over_errors := acc.1.rx_over_errors + 1,
              rx_errors := acc.1.rx_errors + 1,
              rx_overflow := acc.1.rx_overflow + 1 },
           acc.2.1 ||| CAN_ERR_CRTL, acc.2.2 ||| CAN_ERR_CRTL_RX_OVERFLOW)
        else acc)
      ({ writes := [], rx_over_errors := 0, rx_errors := 0, rx_overflow := 0,
         err_skbs := [] }, 0, 0)
    = ({ writes := (rxovFifos rxovif n).map
            (fun i => ((CAN_FIFOSTA i, 0, CAN_FIFOSTA_RXOVIF) : Int × Nat × Nat)),
         rx_over_errors := (rxovFifos rxovif n).length,
         rx_errors := (rxovFifos rxovif n).length,
         rx_overflow := (rxovFifos rxovif n).length,
         err_skbs := [] },
       (if rxovFifos rxovif n = [] then 0 else CAN_ERR_CRTL),
       (if rxovFifos rxovif n = [] then 0 else CAN_ERR_CRTL_RX_OVERFLOW)) := by
  induction n with
  | zero => simp [rxovFifos]
  | succ n ih =>
    rw [List.range_succ, List.foldl_append, ih]
    simp only [List.foldl_cons, List.foldl_nil]
    by_cases hb : rxovif.testBit n = true
    · rw [if_pos ((and_bit_iff rxovif n).mpr hb)]
      have hf : rxovFifos rxovif (n + 1) = rxovFifos rxovif n ++ [n] := by
        simp [rxovFifos, List.range_succ, List.filter_append, hb]
      rw [hf]
      by_cases he : rxovFifos rxovif n = []
      · simp [he]
      · simp only [if_neg he, if_neg (by simp : ¬(rxovFifos rxovif n ++ [n] = []))]
        simp [CAN_ERR_CRTL, CAN_ERR_CRTL_RX_OVERFLOW]
    · rw [if_neg (by rw [and_bit_iff]; simpa using hb)]
      have hf : rxovFifos rxovif (n + 1) = rxovFifos rxovif n := by
        simp only [rxovFifos, List.range_succ, List.filter_append]
        simp [hb]
      rw [hf]

/-- Claim C8: receive-overflow recovery.  Every fifo whose overflow flag is
set gets one individual masked write clearing `RXOVIF` in its own
`CAN_FIFOSTA` register, the overflow and receive-error counters are each
incremented once per overflowed fifo, and exactly one synthetic error frame
(`CAN_ERR_CRTL` / `CAN_ERR_CRTL_RX_OVERFLOW`) is emitted per drain pass no
matter how many fifos overflowed; with no overflow bits set nothing is
written and no error frame is emitted (and the pass always completes when the
register writes succeed, as modelled). -/
theorem mcp2517fd_rxovif_recovery (rxovif : Nat) :
    (mcp2517fd_can_ist_handle_rxovif rxovif).writes
        = (rxovFifos rxovif 32).map
            (fun i => ((CAN_FIFOSTA i, 0, CAN_FIFOSTA_RXOVIF) : Int × Nat × Nat)) ∧
    (mcp2517fd_can_ist_handle_rxovif rxovif).rx_over_errors
        = (rxovFifos rxovif 32).length ∧
    (mcp2517fd_can_ist_handle_rxovif rxovif).rx_errors
        = (rxovFifos rxovif 32).length ∧
    (mcp2517fd_can_ist_handle_rxovif rxovif).rx_overflow
        = (rxovFifos rxovif 32).length ∧
    (rxovFifos rxovif 32 ≠ [] →
      (mcp2517fd_can_ist_handle_rxovif rxovif).err_skbs
        = [(CAN_ERR_CRTL, CAN_ERR_CRTL_RX_OVERFLOW)]) ∧
    (rxovFifos rxovif 32 = [] →
      (mcp2517fd_can_ist_handle_rxovif rxovif).err_skbs = []) := by
  have h := rxov_fold_spec rxovif 32
  by_cases he : rxovFifos rxovif 32 = []
  · simp only [mcp2517fd_can_ist_handle_rxovif, h, if_pos he]
    simp [he]
  · simp only [mcp2517fd_can_ist_handle_rxovif, h, if_neg he]
    rw [if_pos (by simp [CAN_ERR_CRTL])]
    simp [he]

/-- Witness for C8 at the concrete overflow mask `0b1100000000` (fifos 8 and
9 overflowed). -/
theorem mcp2517fd_rxovif_recovery_witness :
    (mcp2517fd_can_ist_handle_rxovif 0x300).rx_errors = 2 ∧
    (mcp2517fd_can_ist_handle_rxovif 0x300).err_skbs
      = [(CAN_ERR_CRTL, CAN_ERR_CRTL_RX_OVERFLOW)] :=
  ⟨by rw [(mcp2517fd_rxovif_recovery 0x300).2.2.1]; decide,
   (mcp2517fd_rxovif_recovery 0x300).2.2.2.2.1 (by decide)⟩

/-! ### Interrupt dispatch loop (`mcp2517fd_can_ist`) -/

def CAN_INT_IE_SHIFT : Nat := 16

/-- Observable actions of the dispatch loop: one batched status read, and one
`mcp2517fd_can_ist_handle_status` pass over the value just read. -/
inductive IstStep where
  | readStatus (v : Nat)
  | handle (v : Nat)
deriving DecidableEq

inductive IstOutcome where
  | quit
  | idle
  | spin
deriving DecidableEq

/-- `mcp2517fd_can_ist`: iteration `k` first checks `force_quit`; if clear it
reads the status block (`status k` abstracts the value the k-th read
returns), goes idle when no enabled interrupt flag is raised
(`intf &&& (intf >>> CAN_INT_IE_SHIFT) = 0`), and otherwise handles the
status and loops.  `fuel` bounds the unrolling; `.spin` marks exhaustion. -/
def mcp2517fd_can_ist_loop (force_quit : Nat → Bool) (status : Nat → Nat) :
    Nat → Nat → List IstStep × IstOutcome
  | _, 0 => ([], .spin)
  | k, fuel + 1 =>
    if force_quit k then ([], .quit)
    else
      let v := status k
      if v &&& (v >>> CAN_INT_IE_SHIFT) = 0 then ([.readStatus v], .idle)
      else
        let r := mcp2517fd_can_ist_loop force_quit status (k + 1) fuel
        (.readStatus v :: .handle v :: r.1, r.2)

/-- The trace of `m` full service iterations starting at iteration `k`: each
contributes exactly one status read and one handling pass. -/
def istTrace (status : Nat → Nat) : Nat → Nat → List IstStep
  | _, 0 => []
  | k, m + 1 => .readStatus (status k) :: .handle (status k) :: istTrace status (k + 1) m

theorem istTrace_length (status : Nat → Nat) : ∀ m k,
    (istTrace status k m).length = 2 * m := by
  intro m
  induction m with
  | zero => intro k; rfl
  | succ m ih =>
    intro k
    simp only [istTrace, List.length_cons, ih (k + 1)]
    omega

/-- Claim C9: interrupt dispatch loop.  (1) whenever the cancellation flag is
set at the top of an iteration the loop stops with no further status read or
handling; (2) after `m` iterations in which the flag is clear and some
enabled interrupt flag is raised — each contributing exactly one status read
and one handling pass — the loop quits immediately if the flag is now set,
and goes idle after one final status read exactly when no enabled flag
remains asserted. -/
theorem mcp2517fd_can_ist_dispatch (quit : Nat → Bool) (status : Nat → Nat) :
    (∀ k fuel, quit k = true →
      mcp2517fd_can_ist_loop quit status k (fuel + 1) = ([], .quit)) ∧
    (∀ m k fuel, m < fuel →
      (∀ j, j < m → quit (k + j) = false ∧
        status (k + j) &&& (status (k + j) >>> CAN_INT_IE_SHIFT) ≠ 0) →
      (quit (k + m) = true →
        mcp2517fd_can_ist_loop quit status k fuel
          = (istTrace status k m, .quit)) ∧
      (quit (k + m) = false →
        status (k + m) &&& (status (k + m) >>> CAN_INT_IE_SHIFT) = 0 →
        mcp2517fd_can_ist_loop quit status k fuel
          = (istTrace status k m ++ [.readStatus (status (k + m))], .idle))) := by
  constructor
  · intro k fuel hq
    simp [mcp2517fd_can_ist_loop, hq]
  · intro m
    induction m with
    | zero =>
      intro k fuel hf _
      obtain ⟨f, rfl⟩ : ∃ f, fuel = f + 1 := ⟨fuel - 1, by omega⟩
      constructor
      · intro hq
        simp only [Nat.add_zero] at hq
        simp [mcp2517fd_can_ist_loop, hq, istTrace]
      · intro hq hflags
        simp only [Nat.add_zero] at hq hflags
        simp [mcp2517fd_can_ist_loop, hq, hflags, istTrace]
    | succ m ih =>
      intro k fuel hf hrun
      obtain ⟨f, rfl⟩ : ∃ f, fuel = f + 1 := ⟨fuel - 1, by omega⟩
      obtain ⟨hq0, hflags0⟩ := hrun 0 (by omega)
      simp only [Nat.add_zero] at hq0 hflags0
      have hstep : mcp2517fd_can_ist_loop quit status k (f + 1)
          = (.readStatus (status k) :: .handle (status k)
              :: (mcp2517fd_can_ist_loop quit status (k + 1) f).1,
             (mcp2517fd_can_ist_loop quit status (k + 1) f).2) := by
        simp [mcp2517fd_can_ist_loop, hq0, hflags0]
      have hrun1 : ∀ j, j < m → quit (k + 1 + j) = false ∧
          status (k + 1 + j) &&& (status (k + 1 + j) >>> CAN_INT_IE_SHIFT) ≠ 0 := by
        intro j hj
        have := hrun (j + 1) (by omega)
        have he : k + (j + 1) = k + 1 + j := by omega
        rw [he] at this
        exact this
      have ihm := ih (k + 1) f (by omega) hrun1
      have he2 : k + 1 + m = k + (m + 1) := by omega
      rw [he2] at ihm
      constructor
      · intro hq
        rw [hstep, (ihm.1 hq)]
        rfl
      · intro hq hflags
        rw [hstep, (ihm.2 hq hflags)]
        rfl

/-- Witness for C9: with the flag set from iteration 2 on and an
enabled-and-raised status word before that, the loop performs exactly two
read/handle pairs and quits; with a status whose enabled flag is no longer
raised at iteration 1, it goes idle after the final read. -/
theorem mcp2517fd_can_ist_dispatch_witness :
    mcp2517fd_can_ist_loop (fun k => decide (k = 2)) (fun _ => 0x00010001) 0 5
      = ([.readStatus 0x00010001, .handle 0x00010001,
          .readStatus 0x00010001, .handle 0x00010001], .quit) ∧
    mcp2517fd_can_ist_loop (fun _ => false)
        (fun k => if k = 0 then 0x00010001 else 0x00010000) 0 5
      = ([.readStatus 0x00010001, .handle 0x00010001,
          .readStatus 0x00010000], .idle) := by
  constructor
  · have h := ((mcp2517fd_can_ist_dispatch (fun k => decide (k = 2))
      (fun _ => 0x00010001)).2 2 0 5 (by decide) (by decide)).1 (by decide)
    rw [h]
    rfl
  · have h := ((mcp2517fd_can_ist_dispatch (fun _ => false)
      (fun k => if k = 0 then 0x00010001 else 0x00010000)).2 1 0 5
      (by decide) (by decide)).2 (by decide) (by decide)
    rw [h]
    rfl

/-! ### Batched receive drain (`mcp2517fd_can_ist_handle_rxif`)

The handler scans the receive pool `[rx_fifo_start, rx_fifo_start +
rx_fifos)` over the ready mask `status.rxif`; for each maximal contiguous run
of ready fifos it issues one read transaction covering the whole run and then
dispatches each fifo of the run.  `runLen` is the inner loop finding the end
of a run; `rxRuns` is the outer loop, returning the run list (start fifo,
fifo count), each run being one read of `count * fifo_size` bytes. -/

/-- Length of the run of set bits starting at `i`, capped at the remaining
window size (the inner `for (j = i; j < end && mask & BIT(j); j++)` loop). -/
def runLen (mask : Nat) : Nat → Nat → Nat
  | _, 0 => 0
  | i, r + 1 => if mask.testBit i then runLen mask (i + 1) r + 1 else 0

theorem runLen_pos {mask i r : Nat} (h : mask.testBit i = true) :
    1 ≤ runLen mask i (r + 1) := by
  simp only [runLen, h, if_true]
  omega

theorem runLen_le (mask : Nat) : ∀ f i, runLen mask i f ≤ f := by
  intro f
  induction f with
  | zero => intro i; simp [runLen]
  | succ r ih =>
    intro i
    simp only [runLen]
    split
    · have := ih (i + 1); omega
    · omega

theorem runLen_bits (mask : Nat) : ∀ f i k, k < runLen mask i f →
    mask.testBit (i + k) = true := by
  intro f
  induction f with
  | zero => intro i k hk; simp [runLen] at hk
  | succ r ih =>
    intro i k hk
    simp only [runLen] at hk
    by_cases hb : mask.testBit i = true
    · match k with
      | 0 => simpa using hb
      | k + 1 =>
        have : i + (k + 1) = (i + 1) + k := by omega
        rw [this]
        refine ih (i + 1) k ?_
        simp only [hb, if_true] at hk
        omega
    · simp only [Bool.not_eq_true] at hb
      simp [hb] at hk

theorem runLen_end (mask : Nat) : ∀ f i, runLen mask i f < f →
    mask.testBit (i + runLen mask i f) = false := by
  intro f
  induction f with
  | zero => intro i h; omega
  | succ r ih =>
    intro i h
    by_cases hb : mask.testBit i = true
    · simp only [runLen, hb, if_true] at h ⊢
      have : i + (runLen mask (i + 1) r + 1) = (i + 1) + runLen mask (i + 1) r := by
        omega
      rw [this]
      exact ih (i + 1) (by omega)
    · simp only [Bool.not_eq_true] at hb
      simp only [runLen, hb, if_false]
      simpa using hb

theorem runLen_ge (mask : Nat) : ∀ f i j, j ≤ f →
    (∀ k, k < j → mask.testBit (i + k) = true) → j ≤ runLen mask i f := by
  intro f
  induction f with
  | zero => intro i j hj _; omega
  | succ r ih =>
    intro i j hj hbits
    match j with
    | 0 => omega
    | j + 1 =>
      have hb : mask.testBit i = true := by simpa using hbits 0 (by omega)
      simp only [runLen, hb, if_true]
      have : j ≤ runLen mask (i + 1) r := by
        refine ih (i + 1) j (by omega) ?_
        intro k hk
        have : (i + 1) + k = i + (k + 1) := by omega
        rw [this]
        exact hbits (k + 1) (by omega)
      omega

/-- Gas-fueled evaluator behind `rxRuns` (structural recursion). -/
def rxRunsAux (mask : Nat) : Nat → Nat → Nat → List (Nat × Nat)
  | 0, _, _ => []
  | g + 1, i, f =>
    if f = 0 then []
    else if mask.testBit i then
      (i, runLen mask i f) :: rxRunsAux mask g (i + runLen mask i f) (f - runLen mask i f)
    else rxRunsAux mask g (i + 1) (f - 1)

/-- The run list of the batched receive scan: the outer loop of
`mcp2517fd_can_ist_handle_rxif` over window `[i, i + f)`. -/
def rxRuns (mask i f : Nat) : List (Nat × Nat) := rxRunsAux mask f i f

theorem rxRunsAux_zero (mask : Nat) : ∀ g i, rxRunsAux mask g i 0 = [] := by
  intro g i
  cases g <;> simp [rxRunsAux]

theorem rxRunsAux_eq_of_le (mask : Nat) : ∀ f, ∀ {g1 g2 : Nat}, ∀ i, f ≤ g1 → f ≤ g2 →
    rxRunsAux mask g1 i f = rxRunsAux mask g2 i f := by
  intro f
  induction f using Nat.strong_induction_on with
  | _ f ih =>
    intro g1 g2 i h1 h2
    by_cases hf : f = 0
    · subst hf; rw [rxRunsAux_zero, rxRunsAux_zero]
    · cases g1 with
      | zero => omega
      | succ g1 =>
        cases g2 with
        | zero => omega
        | succ g2 =>
          simp only [rxRunsAux, hf, if_false]
          by_cases hb : mask.testBit i = true
          · simp only [hb, if_true]
            obtain ⟨f', rfl⟩ : ∃ f', f = f' + 1 := ⟨f - 1, by omega⟩
            have hL := @runLen_pos mask i f' hb
            have hLle := runLen_le mask (f' + 1) i
            rw [ih (f' + 1 - runLen mask i (f' + 1)) (by omega)
              (i + runLen mask i (f' + 1))
              (show f' + 1 - runLen mask i (f' + 1) ≤ g1 by omega)
              (show f' + 1 - runLen mask i (f' + 1) ≤ g2 by omega)]
          · simp only [hb, if_false]
            rw [ih (f - 1) (by omega) (i + 1)
              (show f - 1 ≤ g1 by omega) (show f - 1 ≤ g2 by omega)]
            simp

/-- The natural recurrence of `rxRuns`, mirroring the C loop. -/
theorem rxRuns_eq (mask i f : Nat) : rxRuns mask i f =
    if f = 0 then []
    else if mask.testBit i then
      (i, runLen mask i f) :: rxRuns mask (i + runLen mask i f) (f - runLen mask i f)
    else rxRuns mask (i + 1) (f - 1) := by
  by_cases hf : f = 0
  · subst hf; simp [rxRuns, rxRunsAux_zero]
  · obtain ⟨f', rfl⟩ : ∃ f', f = f' + 1 := ⟨f - 1, by omega⟩
    simp only [rxRuns, rxRunsAux, hf, if_false]
    by_cases hb : mask.testBit i = true
    · simp only [hb, if_true]
      have hL := @runLen_pos mask i f' hb
      have hLle := runLen_le mask (f' + 1) i
      rw [rxRunsAux_eq_of_le mask (f' + 1 - runLen mask i (f' + 1))
        (i + runLen mask i (f' + 1))
        (show f' + 1 - runLen mask i (f' + 1) ≤ f' by omega)
        (le_refl (f' + 1 - runLen mask i (f' + 1)))]
    · simp only [hb, if_false]
      rw [rxRunsAux_eq_of_le mask (f' + 1 - 1) (i + 1)
        (show f' + 1 - 1 ≤ f' by omega) (le_refl (f' + 1 - 1))]
      simp

/-- The scan of window `[i, i + f)` returns exactly the maximal contiguous
runs of set mask bits inside the window. -/
theorem rxRuns_mem_iff (mask : Nat) : ∀ f i j len,
    ((j, len) ∈ rxRuns mask i f) ↔
      (1 ≤ len ∧ i ≤ j ∧ j + len ≤ i + f ∧
       (∀ k, k < len → mask.testBit (j + k) = true) ∧
       (j = i ∨ mask.testBit (j - 1) = false) ∧
       (j + len = i + f ∨ mask.testBit (j + len) = false)) := by
  intro f
  induction f using Nat.strong_induction_on with
  | _ f ih =>
    intro i j len
    by_cases hf : f = 0
    · subst hf
      rw [rxRuns_eq]
      simp only [if_pos rfl]
      constructor
      · intro hmem
        simp at hmem
      · rintro ⟨h1, h2, h3, -⟩
        omega
    · rw [rxRuns_eq, if_neg hf]
      by_cases hb : mask.testBit i = true
      · rw [if_pos hb]
        have hL1 : 1 ≤ runLen mask i f := by
          obtain ⟨g, rfl⟩ : ∃ g, f = g + 1 := ⟨f - 1, by omega⟩
          exact runLen_pos hb
        have hLle : runLen mask i f ≤ f := runLen_le mask f i
        set L := runLen mask i f with hLdef
        constructor
        · intro hmem
          rcases List.mem_cons.mp hmem with heq | hmem2
          · have hj : j = i := congrArg Prod.fst heq
            have hlen : len = L := congrArg Prod.snd heq
            refine ⟨by omega, by omega, by omega, ?_, Or.inl hj, ?_⟩
            · intro k hk
              rw [hj]
              exact runLen_bits mask f i k (by omega)
            · by_cases hLf : L < f
              · refine Or.inr ?_
                rw [hj, hlen]
                exact runLen_end mask f i hLf
              · exact Or.inl (by omega)
          · obtain ⟨p1, p2, p3, p4, p5, p6⟩ :=
              (ih (f - L) (by omega) (i + L) j len).mp hmem2
            refine ⟨p1, by omega, by omega, p4, ?_, ?_⟩
            · rcases p5 with hj | hbf
              · exfalso
                have hbit : mask.testBit (i + L) = true := by
                  have h0 := p4 0 (by omega)
                  rw [hj] at h0
                  simpa using h0
                have hLf : L < f := by omega
                rw [runLen_end mask f i hLf] at hbit
                exact Bool.false_ne_true hbit
              · exact Or.inr hbf
            · rcases p6 with he | hbf
              · exact Or.inl (by omega)
              · exact Or.inr hbf
        · rintro ⟨q1, q2, q3, q4, q5, q6⟩
          by_cases hji : j = i
          · subst hji
            have hlen : len = L := by
              have hle1 : len ≤ L := runLen_ge mask f j len (by omega) q4
              have hle2 : L ≤ len := by
                by_contra hcon
                push_neg at hcon
                have hbit := runLen_bits mask f j len hcon
                rcases q6 with he | hbf
                · omega
                · rw [hbf] at hbit
                  exact Bool.false_ne_true hbit
              omega
            subst hlen
            exact List.mem_cons_self _ _
          · have hbf : mask.testBit (j - 1) = false := by
              rcases q5 with h | h
              · exact absurd h hji
              · exact h
            have hjge : i + L + 1 ≤ j := by
              by_contra hcon
              push_neg at hcon
              have hbit := runLen_bits mask f i (j - 1 - i) (by omega)
              rw [show i + (j - 1 - i) = j - 1 by omega] at hbit
              rw [hbf] at hbit
              exact Bool.false_ne_true hbit
            refine List.mem_cons.mpr (Or.inr ?_)
            refine (ih (f - L) (by omega) (i + L) j len).mpr
              ⟨q1, by omega, by omega, q4, Or.inr hbf, ?_⟩
            rcases q6 with he | hbf2
            · exact Or.inl (by omega)
            · exact Or.inr hbf2
      · rw [if_neg hb]
        have hb' : mask.testBit i = false := by simpa using hb
        constructor
        · intro hmem
          obtain ⟨p1, p2, p3, p4, p5, p6⟩ :=
            (ih (f - 1) (by omega) (i + 1) j len).mp hmem
          refine ⟨p1, by omega, by omega, p4, ?_, ?_⟩
          · rcases p5 with hj | hbf
            · refine Or.inr ?_
              rw [show j - 1 = i by omega]
              exact hb'
            · exact Or.inr hbf
          · rcases p6 with he | hbf
            · exact Or.inl (by omega)
            · exact Or.inr hbf
        · rintro ⟨q1, q2, q3, q4, q5, q6⟩
          have hji : j ≠ i := by
            intro hj
            have h0 := q4 0 (by omega)
            rw [hj] at h0
            simp only [Nat.add_zero] at h0
            rw [hb'] at h0
            exact Bool.false_ne_true h0
          have hbf : mask.testBit (j - 1) = false := by
            rcases q5 with h | h
            · exact absurd h hji
            · exact h
          refine (ih (f - 1) (by omega) (i + 1) j len).mpr
            ⟨q1, by omega, by omega, q4, ?_, ?_⟩
          · exact Or.inr hbf
          · rcases q6 with he | hbf2
            · exact Or.inl (by omega)
            · exact Or.inr hbf2

/-- The fifos dispatched by one receive drain pass, in the order the handler
visits them (each run contributes its fifos in index order). -/
def rxDispatch (mask i f : Nat) : List Nat :=
  ((rxRuns mask i f).map (fun p => (List.range p.2).map (fun k => p.1 + k))).flatten

/-- Dispatch covers exactly the ready fifos of the window, in index order. -/
theorem rxDispatch_eq (mask : Nat) : ∀ f i,
    rxDispatch mask i f
      = ((List.range f).map (fun k => i + k)).filter (fun j => mask.testBit j) := by
  intro f
  induction f using Nat.strong_induction_on with
  | _ f ih =>
    intro i
    by_cases hf : f = 0
    · subst hf
      simp [rxDispatch, rxRuns_eq]
    · by_cases hb : mask.testBit i = true
      · have hL1 : 1 ≤ runLen mask i f := by
          obtain ⟨g, rfl⟩ : ∃ g, f = g + 1 := ⟨f - 1, by omega⟩
          exact runLen_pos hb
        have hLle : runLen mask i f ≤ f := runLen_le mask f i
        set L := runLen mask i f with hLdef
        have hsplit : List.range f = List.range L ++ (List.range (f - L)).map (L + ·) := by
          have h := List.range_add L (f - L)
          rw [show L + (f - L) = f by omega] at h
          exact h
        rw [rxDispatch, rxRuns_eq, if_neg hf, if_pos hb]
        simp only [List.map_cons, List.flatten_cons]
        have htail : ((rxRuns mask (i + L) (f - L)).map
            (fun p => (List.range p.2).map (fun k => p.1 + k))).flatten
            = rxDispatch mask (i + L) (f - L) := rfl
        rw [htail, ih (f - L) (by omega) (i + L), hsplit, List.map_append,
          List.filter_append]
        congr 1
        · rw [List.filter_eq_self.mpr]
          intro a ha
          obtain ⟨k, hk, rfl⟩ := List.mem_map.mp ha
          rw [List.mem_range] at hk
          simpa using runLen_bits mask f i k hk
        · rw [List.map_map]
          apply congrArg
          apply List.map_congr_left
          intro k _
          simp only [Function.comp_apply]
          omega
      · have hb' : mask.testBit i = false := by simpa using hb
        have hsplit : List.range f = List.range 1 ++ (List.range (f - 1)).map (1 + ·) := by
          have h := List.range_add 1 (f - 1)
          rw [show 1 + (f - 1) = f by omega] at h
          exact h
        rw [rxDispatch, rxRuns_eq, if_neg hf, if_neg hb]
        have htail : ((rxRuns mask (i + 1) (f - 1)).map
            (fun p => (List.range p.2).map (fun k => p.1 + k))).flatten
            = rxDispatch mask (i + 1) (f - 1) := rfl
        rw [htail, ih (f - 1) (by omega) (i + 1), hsplit, List.map_append,
          List.filter_append]
        have hhead : ((List.range 1).map (fun k => i + k)).filter
            (fun j => mask.testBit j) = [] := by
          simp [List.range_succ, hb']
        rw [hhead, List.nil_append, List.map_map]
        apply congrArg
        apply List.map_congr_left
        intro k _
        simp only [Function.comp_apply]
        omega

/-- Every ready fifo of the pool is dispatched exactly once per pass. -/
theorem rxDispatch_count (mask s n f : Nat) :
    (rxDispatch mask s n).count f
      = if s ≤ f ∧ f < s + n ∧ mask.testBit f = true then 1 else 0 := by
  rw [rxDispatch_eq]
  by_cases hbf : mask.testBit f = true
  · rw [List.count_filter (by simpa using hbf)]
    by_cases hmem : s ≤ f ∧ f < s + n
    · rw [if_pos ⟨hmem.1, hmem.2, hbf⟩]
      apply List.count_eq_one_of_mem
      · exact List.Nodup.map (fun a b hab => by omega) (List.nodup_range n)
      · exact List.mem_map.mpr ⟨f - s, List.mem_range.mpr (by omega), by omega⟩
    · rw [if_neg (by tauto)]
      apply List.count_eq_zero_of_not_mem
      intro hc
      obtain ⟨k, hk, he⟩ := List.mem_map.mp hc
      rw [List.mem_range] at hk
      omega
  · rw [if_neg (by tauto)]
    apply List.count_eq_zero_of_not_mem
    intro hc
    have h := List.of_mem_filter hc
    exact hbf (by simpa using h)

/-- A maximal contiguous run of ready bits inside the receive pool
`[s, s + n)`. -/
def IsMaxRun (mask s n j len : Nat) : Prop :=
  1 ≤ len ∧ s ≤ j ∧ j + len ≤ s + n ∧
  (∀ k, k < len → mask.testBit (j + k) = true) ∧
  (j = s ∨ mask.testBit (j - 1) = false) ∧
  (j + len = s + n ∨ mask.testBit (j + len) = false)

/-- The per-mode receive slot size: `sizeof(struct mcp2517fd_obj_rx) = 12`
plus the payload (64 bytes in FD mode, 8 in classic mode). -/
def mcp2517fd_rx_fifo_size (fd : Bool) : Nat := 12 + (if fd then 64 else 8)

/-- `mcp2517fd_can_ist_handle_rxif`: the list of batched read transactions of
one drain pass, as (first fifo of the run, number of fifos in the run); each
entry is issued as a single read of `count * fifo_size` bytes starting at the
first fifo's address. -/
def mcp2517fd_can_ist_handle_rxif (rxif rx_fifo_start rx_fifos : Nat) :
    List (Nat × Nat) :=
  rxRuns rxif rx_fifo_start rx_fifos

/-- Claim C6: receive drain batching.  The read transactions of a drain pass
are exactly the maximal contiguous runs of ready bits inside the receive
pool, each covering `run_length * slot_size` bytes; every ready fifo is
dispatched exactly once; and the ready pattern `0b1011` over the FD pool
(fifos 8..26) yields exactly the two transactions {8, 9} (152 bytes) and
{11} (76 bytes). -/
theorem mcp2517fd_rxif_batched_runs :
    (∀ mask s n j len,
      ((j, len) ∈ mcp2517fd_can_ist_handle_rxif mask s n) ↔ IsMaxRun mask s n j len) ∧
    (∀ mask s n, rxDispatch mask s n
      = ((List.range n).map (fun k => s + k)).filter (fun j => mask.testBit j)) ∧
    (∀ mask s n f, (rxDispatch mask s n).count f
      = if s ≤ f ∧ f < s + n ∧ mask.testBit f = true then 1 else 0) ∧
    mcp2517fd_can_ist_handle_rxif (0b1011 <<< 8) 8 19 = [(8, 2), (11, 1)] ∧
    (mcp2517fd_can_ist_handle_rxif (0b1011 <<< 8) 8 19).map
        (fun p => p.2 * mcp2517fd_rx_fifo_size true) = [152, 76] := by
  refine ⟨?_, ?_, ?_, by decide, by decide⟩
  · intro mask s n j len
    exact rxRuns_mem_iff mask n s j len
  · intro mask s n
    exact rxDispatch_eq mask n s
  · intro mask s n f
    exact rxDispatch_count mask s n f

/-- Witness for C6: the first transaction of the `0b1011` pattern is a
maximal run. -/
theorem mcp2517fd_rxif_batched_runs_witness :
    (8, 2) ∈ mcp2517fd_can_ist_handle_rxif (0b1011 <<< 8) 8 19 ∧
    IsMaxRun (0b1011 <<< 8) 8 19 8 2 :=
  ⟨by rw [mcp2517fd_rxif_batched_runs.2.2.2.1]; decide,
   (mcp2517fd_rxif_batched_runs.1 (0b1011 <<< 8) 8 19 8 2).mp
     (by rw [mcp2517fd_rxif_batched_runs.2.2.2.1]; decide)⟩

end Mcp2517fd
